import Mathlib

/-!
Arith: bit-field word engine, transforms and codec pipeline.

A shallow embedding of `bitpack.c`, `conversion.c` and `compress40.c`, with the
properties the specification states about them.

Conventions of the embedding.

* `double` values are rationals: the transforms and the quantization are the
  exact arithmetic the specification states their properties in.
* Standard output and the compressed input are lists of bytes; the object
  representation of integers is little-endian.
* The raster is a function from column and row to pixel when it is read, and
  the list of pixels written when it is filled.
* `fscanf` is modelled from its definition in the C standard; the chroma tables
  of `arith40.h` and `Pnm_ppmwrite` are parameters.

* `uint64_t` values are naturals below `2 ^ 64`; every operation that can leave
  that range in C reduces modulo `2 ^ 64` explicitly.
* `unsigned` values (`width`, `lsb`) are naturals below `2 ^ 32`; the sum
  `width + lsb` of the assertions is taken modulo `2 ^ 32` as in C.
* `int64_t` values are integers in `[-2 ^ 63, 2 ^ 63)`; conversions between the
  signed and unsigned types are two's complement.
* A function that can stop without returning a value returns `Except Fault _`.
  `assert` failures, `RAISE(Bitpack_Overflow)` and shifts of a 64-bit operand by
  a count that is not below 64 (undefined in C, ISO C 6.5.7) are the faults.
* `Bitpack_getu_machine` and `Bitpack_newu_machine` are the same statements
  with the value the compiled shift has at every count: the shift instructions
  of the 64-bit targets use the count modulo 64.
-/

namespace Arith

/-- Ways in which a call stops without returning a value. -/
inductive Fault where
  /-- A failed `assert`: a checked runtime error. -/
  | assertion
  /-- The exception `Bitpack_Overflow` was raised. -/
  | overflow
  /-- A 64-bit shift whose count is 64 or more: the C program has no defined
  behaviour from this point. -/
  | undefinedShift
  /-- The exception `SHORT_FILE` of `compress40.c` was raised. -/
  | shortFile
  /-- A `double` was converted to `unsigned` although its value is negative or
  does not fit: the C program has no defined behaviour from this point. -/
  | undefinedConversion
  deriving DecidableEq, Repr

deriving instance DecidableEq for Except

/-- The macro `WORDSIZE` of `bitpack.c`. -/
def WORDSIZE : Nat := 64

/-- Conversion of a `uint64_t` bit pattern to `int64_t` (two's complement). -/
def toInt64 (u : Nat) : Int :=
  if u < 2 ^ 63 then (u : Int) else (u : Int) - 2 ^ 64

/-- Conversion of an integer to `uint64_t` (reduction modulo `2 ^ 64`). -/
def toUInt64 (i : Int) : Nat :=
  (i % 2 ^ 64).toNat

/-- The C expression `x >> n` on a `uint64_t` operand. -/
def shr64 (x n : Nat) : Except Fault Nat :=
  if n < 64 then .ok (x >>> n) else .error .undefinedShift

/-- The C expression `x << n` on a `uint64_t` operand. -/
def shl64 (x n : Nat) : Except Fault Nat :=
  if n < 64 then .ok ((x <<< n) % 2 ^ 64) else .error .undefinedShift

/-- The C expression `x << n` on an `int64_t` operand, with the two's complement
result every mainstream compiler gives for a negative or overflowing operand. -/
def shlS64 (x : Int) (n : Nat) : Except Fault Int :=
  if n < 64 then .ok (toInt64 (toUInt64 (x * 2 ^ n))) else .error .undefinedShift

/-- The C expression `~x` on a `uint64_t` operand. -/
def not64 (x : Nat) : Nat :=
  2 ^ 64 - 1 - x

/-- Number of binary digits of `n`, for `n` below `2 ^ fuel`. -/
def bitLength : Nat → Nat → Nat
  | 0, _ => 0
  | fuel + 1, n => if n = 0 then 0 else bitLength fuel (n / 2) + 1

/-- Conversion of a `uint64_t` to `double`: the nearest number with a 53-bit
significand, ties to the even significand.  The result is given as the natural
number the double denotes (every double obtained this way is an integer). -/
def u64ToDouble (n : Nat) : Nat :=
  let len := bitLength 64 n
  if len ≤ 53 then n
  else
    let e := len - 53
    let q := n / 2 ^ e
    let r := n % 2 ^ e
    let half := 2 ^ (e - 1)
    if r < half then q * 2 ^ e
    else if half < r then (q + 1) * 2 ^ e
    else if q % 2 = 0 then q * 2 ^ e
    else (q + 1) * 2 ^ e

/-- The call `pow(2, k)` for an `unsigned` argument `k`: the exact power of two
while it is a finite double, `none` for the result `+infinity`. -/
def pow2Double (k : Nat) : Option Nat :=
  if k < 1024 then some (2 ^ k) else none

/-- The comparison `x >= y` of a finite double with a double that may be
`+infinity`. -/
def geDouble (x : Nat) (y : Option Nat) : Bool :=
  match y with
  | some v => decide (v ≤ x)
  | none => false

/-- The function `Bitpack_fitsu` of `bitpack.c`. -/
def Bitpack_fitsu (n width : Nat) : Bool :=
  if width ≥ WORDSIZE then true
  else
    let max := (1 <<< width) % 2 ^ 64
    decide (max > n)

/-- The function `Bitpack_fitss` of `bitpack.c`. -/
def Bitpack_fitss (n : Int) (width : Nat) : Bool :=
  if width ≥ WORDSIZE then true
  else if width = 0 then decide (n = -1)
  else
    let magnitude := (1 <<< (width - 1)) % 2 ^ 64
    let Min : Int := toInt64 (((2 ^ 64 - 1) * magnitude) % 2 ^ 64)
    let Max : Int := toInt64 magnitude
    decide (Min ≤ n) && decide (n < Max)

/-- The function `Bitpack_getu` of `bitpack.c`. -/
def Bitpack_getu (word width lsb : Nat) : Except Fault Nat :=
  if ¬ width ≤ WORDSIZE then .error .assertion
  else if ¬ (width + lsb) % 2 ^ 32 ≤ WORDSIZE then .error .assertion
  else do
    let mask : Nat := 2 ^ 64 - 1
    let mask ← shr64 mask (WORDSIZE - width)
    let mask ← shl64 mask lsb
    shr64 (word &&& mask) lsb

/-- The function `Bitpack_gets` of `bitpack.c`.  The comparison with `pow(2, width - 1)` is
made on doubles, and `width - 1` is computed on `unsigned`. -/
def Bitpack_gets (word width lsb : Nat) : Except Fault Int := do
  let getu ← Bitpack_getu word width lsb
  if geDouble (u64ToDouble getu) (pow2Double ((width + 2 ^ 32 - 1) % 2 ^ 32))
      && decide (width ≠ 64) then
    let top ← shl64 1 width
    pure (toInt64 ((getu + 2 ^ 64 - top) % 2 ^ 64))
  else
    pure (toInt64 getu)

/-- The function `Bitpack_newu` of `bitpack.c`. -/
def Bitpack_newu (word width lsb value : Nat) : Except Fault Nat :=
  if ¬ width ≤ WORDSIZE then .error .assertion
  else if ¬ (width + lsb) % 2 ^ 32 ≤ WORDSIZE then .error .assertion
  else if ¬ Bitpack_fitsu value width then .error .overflow
  else do
    let mask : Nat := 2 ^ 64 - 1
    let mask ← shr64 mask (WORDSIZE - width)
    let mask ← shl64 mask lsb
    let mask := not64 mask
    let shifted ← shl64 value lsb
    pure ((word &&& mask) ||| shifted)

/-- The function `Bitpack_news` of `bitpack.c`. -/
def Bitpack_news (word width lsb : Nat) (value : Int) : Except Fault Nat :=
  if ¬ width ≤ WORDSIZE then .error .assertion
  else if ¬ (width + lsb) % 2 ^ 32 ≤ WORDSIZE then .error .assertion
  else if ¬ Bitpack_fitss value width then .error .overflow
  else do
    let mask : Nat := 2 ^ 64 - 1
    let mask ← shr64 mask (WORDSIZE - width)
    let mask ← shl64 mask lsb
    let shifted ← shlS64 value lsb
    let insertion := mask &&& toUInt64 shifted
    let mask := not64 mask
    pure ((word &&& mask) ||| insertion)

/-- The function `make_codeword` of `compress40.c`. -/
def make_codeword (pb_bar pr_bar a : Nat) (b c d : Int) : Except Fault Nat := do
  let codeword : Nat := 0
  let codeword ← Bitpack_newu codeword 6 26 a
  let codeword ← Bitpack_news codeword 6 20 b
  let codeword ← Bitpack_news codeword 6 14 c
  let codeword ← Bitpack_news codeword 6 8 d
  let codeword ← Bitpack_newu codeword 4 4 pb_bar
  let codeword ← Bitpack_newu codeword 4 0 pr_bar
  pure codeword

/-- The six quantized fields of a codeword. -/
structure Fields where
  a_scaled : Nat
  b_scaled : Int
  c_scaled : Int
  d_scaled : Int
  pb_bar : Nat
  pr_bar : Nat
  deriving DecidableEq, Repr

/-- The field extraction that opens `decode_codeword` of `compress40.c`: the six
`Bitpack_getu` / `Bitpack_gets` calls, before the values are unscaled. -/
def decode_codeword_fields (codeword : Nat) : Except Fault Fields := do
  let a_scaled ← Bitpack_getu codeword 6 26
  let b_scaled ← Bitpack_gets codeword 6 20
  let c_scaled ← Bitpack_gets codeword 6 14
  let d_scaled ← Bitpack_gets codeword 6 8
  let pb_bar ← Bitpack_getu codeword 4 4
  let pr_bar ← Bitpack_getu codeword 4 0
  pure ⟨a_scaled, b_scaled, c_scaled, d_scaled, pb_bar, pr_bar⟩

/-! ## The bit-field operations as compiled

A shift of a 64-bit operand is compiled to one shift instruction, which takes
the count modulo 64; a count of 64, where C defines no result, shifts by 0. -/

/-- The shift instruction for `x >> n` on a `uint64_t` operand: the count is
taken modulo 64. -/
def shr64_machine (x n : Nat) : Nat :=
  x >>> (n % 64)

/-- The shift instruction for `x << n` on a `uint64_t` operand: the count is
taken modulo 64. -/
def shl64_machine (x n : Nat) : Nat :=
  (x <<< (n % 64)) % 2 ^ 64

/-- The function `Bitpack_getu` of `bitpack.c` with the shifts the compiled
code executes. -/
def Bitpack_getu_machine (word width lsb : Nat) : Except Fault Nat :=
  if ¬ width ≤ WORDSIZE then .error .assertion
  else if ¬ (width + lsb) % 2 ^ 32 ≤ WORDSIZE then .error .assertion
  else
    let mask : Nat := 2 ^ 64 - 1
    let mask := shr64_machine mask (WORDSIZE - width)
    let mask := shl64_machine mask lsb
    .ok (shr64_machine (word &&& mask) lsb)

/-- The function `Bitpack_newu` of `bitpack.c` with the shifts the compiled
code executes. -/
def Bitpack_newu_machine (word width lsb value : Nat) : Except Fault Nat :=
  if ¬ width ≤ WORDSIZE then .error .assertion
  else if ¬ (width + lsb) % 2 ^ 32 ≤ WORDSIZE then .error .assertion
  else if ¬ Bitpack_fitsu value width then .error .overflow
  else
    let mask : Nat := 2 ^ 64 - 1
    let mask := shr64_machine mask (WORDSIZE - width)
    let mask := shl64_machine mask lsb
    let mask := not64 mask
    let shifted := shl64_machine value lsb
    .ok ((word &&& mask) ||| shifted)

/-! ## The linear transforms of `conversion.c`

The type `floating` (`double`) is modelled by the rationals: the arithmetic of the
transforms is the exact arithmetic the specification states its properties in. -/

/-- The matrix `RGB_TO_COLORSPACE` of `conversion.c`. -/
def RGB_TO_COLORSPACE : List (List ℚ) :=
  [[0.299, 0.587, 0.114],
   [-0.168736, -0.331264, 0.5],
   [0.5, -0.418688, -0.081312]]

/-- The matrix `COLORSPACE_TO_RGB` of `conversion.c`. -/
def COLORSPACE_TO_RGB : List (List ℚ) :=
  [[1.0, 0.0, 1.402],
   [1.0, -0.344136, -0.714136],
   [1.0, 1.772, 0.0]]

/-- The matrix `LUMAS_TO_DCT` of `conversion.c`. -/
def LUMAS_TO_DCT : List (List ℚ) :=
  [[0.25, 0.25, 0.25, 0.25],
   [-0.25, -0.25, 0.25, 0.25],
   [-0.25, 0.25, -0.25, 0.25],
   [0.25, -0.25, -0.25, 0.25]]

/-- The matrix `DCT_TO_LUMAS` of `conversion.c`. -/
def DCT_TO_LUMAS : List (List ℚ) :=
  [[1.0, -1.0, -1.0, 1.0],
   [1.0, -1.0, 1.0, -1.0],
   [1.0, 1.0, -1.0, -1.0],
   [1.0, 1.0, 1.0, 1.0]]

/-- The function `MatfMultiply` of `conversion.c`: entry `i` of the result
starts at 0 and accumulates `matrix[i][j] * vec[j]` for `j` from 0 to
`size - 1`. -/
def MatfMultiply (mat : List (List ℚ)) (vec : List ℚ) (size : Nat) : List ℚ :=
  (List.range size).map fun i =>
    (List.range size).foldl (fun acc j => acc + (mat.getD i []).getD j 0 * vec.getD j 0) 0

/-- A pixel `struct Pnm_rgb`.  The samples are `unsigned` in C; they are integers
here so that the value `round` returns in `rgb_to_pixel` is kept as it is (the
store into an `unsigned` field is exact for values from 0 to `2 ^ 32 - 1`). -/
structure Pnm_rgb where
  red : Int
  green : Int
  blue : Int
  deriving DecidableEq, Repr

/-- The function `pixel_to_rgb` of `conversion.c`. -/
def pixel_to_rgb (pixel : Pnm_rgb) (denominator : Nat) : List ℚ :=
  [(pixel.red : ℚ) / (denominator : ℚ),
   (pixel.green : ℚ) / (denominator : ℚ),
   (pixel.blue : ℚ) / (denominator : ℚ)]

/-- The function `rgb_to_cspace` of `conversion.c`. -/
def rgb_to_cspace (rgb : List ℚ) : List ℚ :=
  MatfMultiply RGB_TO_COLORSPACE rgb 3

/-- The function `lumas_to_dct` of `conversion.c`. -/
def lumas_to_dct (lumas : List ℚ) : List ℚ :=
  MatfMultiply LUMAS_TO_DCT lumas 4

/-- The function `dct_to_lumas` of `conversion.c`. -/
def dct_to_lumas (dct : List ℚ) : List ℚ :=
  MatfMultiply DCT_TO_LUMAS dct 4

/-- The function `cspace_to_rgb` of `conversion.c`. -/
def cspace_to_rgb (cspace : List ℚ) : List ℚ :=
  MatfMultiply COLORSPACE_TO_RGB cspace 3

/-- The C library function `round`: the nearest integer, halfway cases away
from zero. -/
def c_round (x : ℚ) : Int :=
  if 0 ≤ x then ⌊x + 1 / 2⌋ else ⌈x - 1 / 2⌉

/-- The function `rgb_to_pixel` of `conversion.c`, returning the pixel it
fills in. -/
def rgb_to_pixel (rgb : List ℚ) (denominator : Nat) : Pnm_rgb :=
  { red := c_round (rgb.getD 0 0 * (denominator : ℚ)),
    green := c_round (rgb.getD 1 0 * (denominator : ℚ)),
    blue := c_round (rgb.getD 2 0 * (denominator : ℚ)) }

/-- The function `scale_DCT` of `compress40.c`. -/
def scale_DCT (coefficient : ℚ) : Int :=
  let coefficient :=
    if coefficient > 0.3 then 0.3
    else if coefficient < -0.3 then -0.3
    else coefficient
  let scaled := coefficient * 103.33
  c_round scaled

/-- The function `unscale_DCT` of `compress40.c`. -/
def unscale_DCT (scaled : Int) : ℚ :=
  (scaled : ℚ) / 103.33

/-! ## Blocks (`conversion.c`) -/

/-- The struct `Compressed` of `conversion.h`. -/
structure Compressed where
  dct_coeffs : List ℚ
  avg_pb : ℚ
  avg_pr : ℚ
  deriving DecidableEq, Repr

/-- The function `Compress_CSBlock` of `conversion.c`. -/
def Compress_CSBlock (cs_block : List (List ℚ)) : Compressed :=
  let lumas := (List.range 4).map fun i => (cs_block.getD i []).getD 0 0
  let total_pb := (List.range 4).foldl (fun total i => total + (cs_block.getD i []).getD 1 0) 0
  let total_pr := (List.range 4).foldl (fun total i => total + (cs_block.getD i []).getD 2 0) 0
  { dct_coeffs := lumas_to_dct lumas,
    avg_pb := total_pb / 4,
    avg_pr := total_pr / 4 }

/-- The function `getCompressed` of `conversion.c`.  The raster is the function
`pixels col row` that `methods->at` computes; entry `i` of the block is filled
in the order of the two nested loops. -/
def getCompressed (pixels : Int → Int → Pnm_rgb) (col row : Int) (denominator : Nat) :
    Compressed :=
  let cs_block : List (List ℚ) :=
    (List.range 2).foldl (fun block block_row =>
      (List.range 2).foldl (fun block block_col =>
        let pixel := pixels (col + (block_col : Int)) (row + (block_row : Int))
        let rgb := pixel_to_rgb pixel denominator
        block ++ [rgb_to_cspace rgb]) block) []
  Compress_CSBlock cs_block

/-- The function `Decompress_CSBlock` of `conversion.c`. -/
def Decompress_CSBlock (compressed : Compressed) : List (List ℚ) :=
  let lumas := dct_to_lumas compressed.dct_coeffs
  (List.range 4).map fun i => [lumas.getD i 0, compressed.avg_pb, compressed.avg_pr]

/-- The pixels written into a raster, in the order of the writes: each entry is
the column, the row and the pixel stored there. -/
abbrev Writes := List ((Int × Int) × Pnm_rgb)

/-- The function `setPixels` of `conversion.c`: the counter `i` runs through the
block while the two nested loops run through the four positions. -/
def setPixels (array : Writes) (col row : Int) (denominator : Nat) (compressed : Compressed) :
    Writes :=
  let cs_block := Decompress_CSBlock compressed
  ((List.range 2).foldl (fun st block_row =>
    (List.range 2).foldl (fun (st : Nat × Writes) block_col =>
      let rgb := cspace_to_rgb (cs_block.getD st.1 [])
      let pixel := rgb_to_pixel rgb denominator
      (st.1 + 1, st.2 ++ [((col + (block_col : Int), row + (block_row : Int)), pixel)])) st)
    (0, array)).2

/-! ## The codec pipeline (`compress40.c`) -/

/-- The inner loop of `map_2by2`: `for (col = ...; col < width - 1; col += 2)`. -/
def map_2by2_cols {σ : Type} (func : Int → Int → σ → Except Fault σ) (width row : Int)
    (col : Int) (s : σ) : Except Fault σ :=
  if h : col < width - 1 then do
    let s ← func col row s
    map_2by2_cols func width row (col + 2) s
  else pure s
termination_by (width - 1 - col).toNat
decreasing_by omega

/-- The outer loop of `map_2by2`: `for (row = ...; row < height - 1; row += 2)`. -/
def map_2by2_rows {σ : Type} (func : Int → Int → σ → Except Fault σ) (width height : Int)
    (row : Int) (s : σ) : Except Fault σ :=
  if h : row < height - 1 then do
    let s ← map_2by2_cols func width row 0 s
    map_2by2_rows func width height (row + 2) s
  else pure s
termination_by (height - 1 - row).toNat
decreasing_by omega

/-- The function `map_2by2` of `compress40.c`; `func col row` is the apply
function with its closure, acting on the state `σ` it reads and updates. -/
def map_2by2 {σ : Type} (func : Int → Int → σ → Except Fault σ) (width height : Int) (s : σ) :
    Except Fault σ :=
  map_2by2_rows func width height 0 s

/-- Byte `i` of the object representation of an unsigned integer on a
little-endian machine (the machine the byte indexing of `pack_block` and
`decode_2by2` is written for). -/
def byteOf (x i : Nat) : Nat :=
  x / 2 ^ (8 * i) % 256

/-- Storing the `unsigned char` value of `b` into byte `i` of an unsigned integer
on a little-endian machine. -/
def setByte (x i b : Nat) : Nat :=
  x - byteOf x i * 2 ^ (8 * i) + b % 256 * 2 ^ (8 * i)

/-- The conversion of the integer-valued `double` that `round` returns to
`unsigned`. -/
def doubleToUnsigned (x : Int) : Except Fault Nat :=
  if 0 ≤ x ∧ x < 2 ^ 32 then .ok x.toNat else .error .undefinedConversion

/-- The output loop of `pack_block`: `putchar` of bytes 3, 2, 1, 0 of the
codeword, appended to what standard output holds. -/
def pack_block_emit (codeword : Nat) (out : List Nat) : List Nat :=
  [3, 2, 1, 0].foldl (fun out i => out ++ [byteOf codeword i]) out

/-- The function `pack_block` of `compress40.c`.  The chroma quantizer
`Arith40_index_of_chroma` is not part of the repository and is a parameter. -/
def pack_block (index_of_chroma : ℚ → Nat) (compressed : Compressed) (out : List Nat) :
    Except Fault (List Nat) := do
  let pb_bar := index_of_chroma compressed.avg_pb
  let pr_bar := index_of_chroma compressed.avg_pr
  let dct_coeffs := compressed.dct_coeffs
  let a_scaled ← doubleToUnsigned (c_round (dct_coeffs.getD 0 0 * 63.0))
  let b_scaled := scale_DCT (dct_coeffs.getD 1 0)
  let c_scaled := scale_DCT (dct_coeffs.getD 2 0)
  let d_scaled := scale_DCT (dct_coeffs.getD 3 0)
  let codeword ← make_codeword pb_bar pr_bar a_scaled b_scaled c_scaled d_scaled
  pure (pack_block_emit codeword out)

/-- The function `encode_2by2` of `compress40.c`, as an apply function on what
standard output holds. -/
def encode_2by2 (index_of_chroma : ℚ → Nat) (pixels : Int → Int → Pnm_rgb)
    (denominator : Nat) (col row : Int) (out : List Nat) : Except Fault (List Nat) :=
  let compressed := getCompressed pixels col row denominator
  pack_block index_of_chroma compressed out

/-- An image as `Pnm_ppmread` returns it. -/
structure Pnm_ppm where
  width : Nat
  height : Nat
  denominator : Nat
  pixels : Int → Int → Pnm_rgb

/-- The bytes `printf` writes for the header of a compressed image. -/
def printf_header (trimmed_width trimmed_height : Nat) : List Nat :=
  ("COMP40 Compressed image format 2\n" ++ toString trimmed_width ++ " "
    ++ toString trimmed_height ++ "\n").toList.map Char.toNat

/-- The function `compress40` of `compress40.c`, from the image read to the
bytes written on standard output.  Dimensions are below `2 ^ 31`, so that their
conversions to `int` are exact. -/
def compress40 (index_of_chroma : ℚ → Nat) (source : Pnm_ppm) : Except Fault (List Nat) :=
  let trimmed_width := source.width - source.width % 2
  let trimmed_height := source.height - source.height % 2
  let out := printf_header trimmed_width trimmed_height
  map_2by2 (encode_2by2 index_of_chroma source.pixels source.denominator)
    (source.width : Int) (source.height : Int) out

/-- The reading loop of `decode_2by2`: for `i` = 3, 2, 1, 0 one `fgetc`, whose
byte is stored into byte `i` of the codeword; `SHORT_FILE` at the end of the
input. -/
def decode_2by2_read_loop : List Nat → Nat → List Nat → Except Fault (Nat × List Nat)
  | [], codeword, input => .ok (codeword, input)
  | i :: rest, codeword, input =>
    match input with
    | [] => .error .shortFile
    | read :: input => decode_2by2_read_loop rest (setByte codeword i read) input

/-- The four-byte read of `decode_2by2` into `uint32_t codeword = 0`. -/
def decode_2by2_read (input : List Nat) : Except Fault (Nat × List Nat) :=
  decode_2by2_read_loop [3, 2, 1, 0] 0 input

/-- The function `decode_codeword` of `compress40.c`.  The chroma table
`Arith40_chroma_of_index` is not part of the repository and is a parameter. -/
def decode_codeword (chroma_of_index : Nat → ℚ) (codeword : Nat) : Except Fault Compressed := do
  let fields ← decode_codeword_fields codeword
  pure { dct_coeffs := [(fields.a_scaled : ℚ) / 63.0, unscale_DCT fields.b_scaled,
           unscale_DCT fields.c_scaled, unscale_DCT fields.d_scaled],
         avg_pb := chroma_of_index fields.pb_bar,
         avg_pr := chroma_of_index fields.pr_bar }

/-- What `decode_2by2` reads and updates: the input not yet read and the pixels
written into the raster. -/
structure DecodeState where
  input : List Nat
  pixels : Writes

/-- The function `decode_2by2` of `compress40.c`. -/
def decode_2by2 (chroma_of_index : Nat → ℚ) (denominator : Nat) (col row : Int)
    (st : DecodeState) : Except Fault DecodeState := do
  let (codeword, input) ← decode_2by2_read st.input
  let compressed ← decode_codeword chroma_of_index codeword
  pure { input := input, pixels := setPixels st.pixels col row denominator compressed }

/-- The function `decompress40` of `compress40.c` from the point where the header
has been read as `width` and `height`: the blocks are decoded into a new raster,
and the pixels written are what `Pnm_ppmwrite` receives.  Dimensions are below
`2 ^ 31`, so that their conversions to `int` are exact. -/
def decompress40_blocks (chroma_of_index : Nat → ℚ) (width height : Nat) (input : List Nat) :
    Except Fault Writes := do
  let st ← map_2by2 (decode_2by2 chroma_of_index 255) (width : Int) (height : Int)
    { input := input, pixels := [] }
  pure st.pixels

/-! ## The header of a compressed stream (`fscanf`, `decompress40`)

The C library function `fscanf` is modelled from its definition in the C
standard for the three kinds of directive the format of `decompress40` uses:
white space, ordinary characters and `%u`. -/

/-- The C library predicate `isspace` in the C locale: space, tab, newline,
vertical tab, form feed, carriage return. -/
def isspace (c : Nat) : Bool :=
  decide (c = 32 ∨ (9 ≤ c ∧ c ≤ 13))

/-- The C library predicate `isdigit`. -/
def isdigit (c : Nat) : Bool :=
  decide (48 ≤ c ∧ c ≤ 57)

/-- A directive of a `scanf` format. -/
inductive Directive where
  /-- White space in the format: reads input up to the first character that is
  not white space. -/
  | space
  /-- An ordinary character: the next input character must be this one. -/
  | ordinary (c : Nat)
  /-- The conversion `%u`. -/
  | unsignedInt
  deriving DecidableEq, Repr

/-- The directives of a format made of white space, ordinary characters and
`%u`. -/
def scanf_directives : List Char → List Directive
  | [] => []
  | '%' :: 'u' :: rest => .unsignedInt :: scanf_directives rest
  | c :: rest =>
    (if isspace c.toNat then Directive.space else Directive.ordinary c.toNat)
      :: scanf_directives rest

/-- A white-space directive: the input from its first character that is not
white space. -/
def skip_space : List Nat → List Nat
  | [] => []
  | c :: rest => if isspace c then skip_space rest else c :: rest

/-- The decimal digits at the front of the input, accumulated into a number,
and the input after them. -/
def scan_digits : Nat → List Nat → Nat × List Nat
  | acc, [] => (acc, [])
  | acc, c :: rest => if isdigit c then scan_digits (acc * 10 + (c - 48)) rest else (acc, c :: rest)

/-- The conversion `%u`: white space is skipped, then an optional sign and a
non-empty run of decimal digits are read.  `none` is a matching or input
failure; a value that an `unsigned` cannot hold has no defined conversion. -/
def scan_unsigned (input : List Nat) : Except Fault (Option (Nat × List Nat)) :=
  match skip_space input with
  | [] => .ok none
  | s :: rest =>
    let signed : Bool × List Nat :=
      if s = 43 then (false, rest) else if s = 45 then (true, rest) else (false, s :: rest)
    match signed.2 with
    | [] => .ok none
    | c :: _ =>
      if isdigit c then
        let scanned := scan_digits 0 signed.2
        if signed.1 then
          if scanned.1 = 0 then .ok (some (0, scanned.2)) else .error .undefinedConversion
        else if scanned.1 < 2 ^ 32 then .ok (some (scanned.1, scanned.2))
        else .error .undefinedConversion
      else .ok none

/-- The directives of `fscanf` run in order on the input; the result is the list
of values converted so far and the input left when the format is exhausted or a
directive fails. -/
def fscanf_loop : List Directive → List Nat → List Nat → Except Fault (List Nat × List Nat)
  | [], input, values => .ok (values, input)
  | .space :: rest, input, values => fscanf_loop rest (skip_space input) values
  | .ordinary c :: rest, input, values =>
    match input with
    | [] => .ok (values, [])
    | x :: input1 => if x = c then fscanf_loop rest input1 values else .ok (values, x :: input1)
  | .unsignedInt :: rest, input, values =>
    match scan_unsigned input with
    | .error f => .error f
    | .ok none => .ok (values, input)
    | .ok (some (n, input1)) => fscanf_loop rest input1 (values ++ [n])

/-- The C library function `fscanf` for a format of white space, ordinary
characters and `%u`: the values converted (their number is the value `fscanf`
returns when it is not `EOF`) and the input left. -/
def fscanf (format : String) (input : List Nat) : Except Fault (List Nat × List Nat) :=
  fscanf_loop (scanf_directives format.toList) input []

/-- What a run of `decompress40` leaves: the bytes written to standard output
and how the run ended. -/
structure Run where
  stdout : List Nat
  outcome : Except Fault Unit

/-- The function `decompress40` of `compress40.c`.  `Pnm_ppmwrite` is not part of
the repository: it is a parameter giving the bytes written for a width, a
height, a denominator and the pixels of the raster. -/
def decompress40 (chroma_of_index : Nat → ℚ)
    (Pnm_ppmwrite : Nat → Nat → Nat → Writes → List Nat) (input : List Nat) : Run :=
  match fscanf "COMP40 Compressed image format 2\n%u %u" input with
  | .error f => { stdout := [], outcome := .error f }
  | .ok (values, input) =>
    match values with
    | [width, height] =>
      match input with
      | [] => { stdout := [], outcome := .error .assertion }
      | c :: input =>
        if c = 10 then
          match decompress40_blocks chroma_of_index width height input with
          | .error f => { stdout := [], outcome := .error f }
          | .ok pixels =>
            { stdout := Pnm_ppmwrite width height 255 pixels, outcome := .ok () }
        else { stdout := [], outcome := .error .assertion }
    | _ => { stdout := [], outcome := .error .assertion }

/-! ## Definitions used to state the properties -/

/-- Bit `j` of the word `Bitpack_newu` builds, in terms of the bits of its
arguments. -/
def newuBit (word width lsb value j : Nat) : Bool :=
  if lsb ≤ j ∧ j < lsb + width then value.testBit (j - lsb) else word.testBit j

/-- The block origins of a `width` by `height` raster in row-major order: for
each even row below `height - 1`, the even columns below `width - 1`. -/
def blockOrigins (width height : Nat) : List (Int × Int) :=
  (List.range (height / 2)).flatMap fun (j : Nat) =>
    (List.range (width / 2)).map fun (i : Nat) => ((2 * (i : Int)), (2 * (j : Int)))

/-- The four positions of the block with origin `(col, row)`, in the order of
the two nested loops of `getCompressed` and `setPixels`. -/
def blockPositions (col row : Int) : List (Int × Int) :=
  [(col, row), (col + 1, row), (col, row + 1), (col + 1, row + 1)]

/-- The positions of all the blocks of a `width` by `height` raster, block after
block in row-major order. -/
def visitedPositions (width height : Nat) : List (Int × Int) :=
  (blockOrigins width height).flatMap fun origin => blockPositions origin.1 origin.2

/-- The input with its white space removed. -/
def strip (input : List Nat) : List Nat :=
  input.filter fun c => !isspace c

/-- The ordinary characters of a list of directives, in order. -/
def ordinaryChars : List Directive → List Nat
  | [] => []
  | .ordinary c :: rest => c :: ordinaryChars rest
  | _ :: rest => ordinaryChars rest

/-- A directive of a literal text: white space, or an ordinary character that is
not white space. -/
def isLiteral : Directive → Bool
  | .space => true
  | .ordinary c => !isspace c
  | .unsignedInt => false

/-- A pixel whose three samples lie between 0 and the denominator. -/
abbrev validPixel (p : Pnm_rgb) (d : Nat) : Prop :=
  (0 ≤ p.red ∧ p.red ≤ d) ∧ (0 ≤ p.green ∧ p.green ≤ d) ∧ (0 ≤ p.blue ∧ p.blue ≤ d)

/-- The all-black pixel, and the chroma quantizer that always answers 0, used to
run the compressor on a concrete image. -/
def blackPixel : Pnm_rgb := ⟨0, 0, 0⟩

/-- The raster whose pixels are all black. -/
def blackImage : Int → Int → Pnm_rgb := fun _ _ => blackPixel

/-- The chroma quantizer that always answers index 0. -/
def zeroIndex : ℚ → Nat := fun _ => 0

/-- A chroma table that stores the index itself, and the quantizer that takes
the integer part, which inverts it. -/
def identityChroma : Nat → ℚ := fun i => (i : ℚ)

/-- The quantizer that takes the integer part of a chroma value. -/
def floorIndex : ℚ → Nat := fun x => ⌊x⌋.toNat

/-! ## Machine shifts and masks -/

theorem mask_shr (width : Nat) (hw : width ≤ 64) :
    (2 ^ 64 - 1) >>> (64 - width) = 2 ^ width - 1 := by
  apply Nat.eq_of_testBit_eq
  intro j
  rw [Nat.testBit_shiftRight, Nat.testBit_two_pow_sub_one, Nat.testBit_two_pow_sub_one]
  congr 1
  apply propext
  omega

theorem testBit_fieldMask (width lsb j : Nat) (h : width + lsb ≤ 64) :
    (((2 ^ width - 1) <<< lsb) % 2 ^ 64).testBit j
      = (decide (lsb ≤ j) && decide (j < lsb + width)) := by
  rw [Nat.testBit_mod_two_pow, Nat.testBit_shiftLeft, Nat.testBit_two_pow_sub_one]
  by_cases h1 : lsb ≤ j <;> by_cases h2 : j < lsb + width <;> by_cases h3 : j < 64 <;>
    simp [h1, h2, h3] <;> omega

theorem testBit_not64 (x j : Nat) (hx : x < 2 ^ 64) :
    (not64 x).testBit j = (decide (j < 64) && !x.testBit j) := by
  have h : not64 x = 2 ^ 64 - (x + 1) := by unfold not64; omega
  rw [h, Nat.testBit_two_pow_sub_succ hx]

theorem testBit_eq_false_of_lt_pow {x w j : Nat} (hx : x < 2 ^ w) (hj : w ≤ j) :
    x.testBit j = false :=
  Nat.testBit_lt_two_pow (lt_of_lt_of_le hx (Nat.pow_le_pow_right (by decide) hj))

/-! ## Closed forms of the bit-field operations for widths 1 to 64 -/

theorem getu_eq (word width lsb : Nat) (h1 : 1 ≤ width) (h2 : width + lsb ≤ 64) :
    Bitpack_getu word width lsb = .ok (word / 2 ^ lsb % 2 ^ width) := by
  have hm : (width + lsb) % 2 ^ 32 = width + lsb := Nat.mod_eq_of_lt (by omega)
  have ha : 64 - width < 64 := by omega
  have hb : lsb < 64 := by omega
  have hc : width ≤ 64 := by omega
  simp only [Bitpack_getu, WORDSIZE, hm, shr64, shl64, ha, hb, hc, h2, not_true_eq_false,
    if_false, if_true, bind, Except.bind, mask_shr width hc]
  congr 1
  apply Nat.eq_of_testBit_eq
  intro j
  rw [Nat.testBit_shiftRight, Nat.testBit_land, testBit_fieldMask _ _ _ h2,
    Nat.testBit_mod_two_pow, ← Nat.shiftRight_eq_div_pow, Nat.testBit_shiftRight]
  by_cases h3 : j < width <;> simp [h3]

theorem fitsu_iff (n width : Nat) :
    Bitpack_fitsu n width = true ↔ 64 ≤ width ∨ n < 2 ^ width := by
  unfold Bitpack_fitsu WORDSIZE
  by_cases h : 64 ≤ width
  · simp [h]
  · have hlt : 2 ^ width < 2 ^ 64 := Nat.pow_lt_pow_right (by decide) (by omega)
    have hlt2 : 2 ^ width < 18446744073709551616 := by norm_num at hlt ⊢; exact hlt
    simp [h, Nat.shiftLeft_eq, Nat.mod_eq_of_lt hlt2]

theorem newu_bits (word width lsb value : Nat) (h1 : 1 ≤ width) (h2 : width + lsb ≤ 64)
    (hword : word < 2 ^ 64) (hv : value < 2 ^ width) :
    ∃ r, Bitpack_newu word width lsb value = .ok r ∧ r < 2 ^ 64 ∧
      ∀ j, r.testBit j = newuBit word width lsb value j := by
  have hm : (width + lsb) % 2 ^ 32 = width + lsb := Nat.mod_eq_of_lt (by omega)
  have ha : 64 - width < 64 := by omega
  have hb : lsb < 64 := by omega
  have hc : width ≤ 64 := by omega
  have hf : Bitpack_fitsu value width = true := (fitsu_iff _ _).2 (Or.inr hv)
  have hmask : ((2 ^ width - 1) <<< lsb) % 2 ^ 64 < 2 ^ 64 := Nat.mod_lt _ (by positivity)
  have hbits : ∀ j, ((word &&& not64 (((2 ^ width - 1) <<< lsb) % 2 ^ 64)) |||
      (value <<< lsb) % 2 ^ 64).testBit j = newuBit word width lsb value j := by
    intro j
    rw [Nat.testBit_lor, Nat.testBit_land, testBit_not64 _ _ hmask,
      testBit_fieldMask _ _ _ h2, Nat.testBit_mod_two_pow, Nat.testBit_shiftLeft]
    unfold newuBit
    by_cases h3 : lsb ≤ j <;> by_cases h4 : j < lsb + width <;> by_cases h5 : j < 64 <;>
      simp [h3, h4, h5]
    · exfalso; omega
    · intro hbit
      rw [testBit_eq_false_of_lt_pow hv (by omega)] at hbit
      exact absurd hbit (by simp)
    all_goals exact testBit_eq_false_of_lt_pow hword (by omega)
  refine ⟨(word &&& not64 (((2 ^ width - 1) <<< lsb) % 2 ^ 64)) |||
      (value <<< lsb) % 2 ^ 64, ?_, ?_, hbits⟩
  · simp only [Bitpack_newu, WORDSIZE, hm, shr64, shl64, ha, hb, hc, h2, hf, not_true_eq_false,
      if_false, if_true, bind, Except.bind, mask_shr width hc, pure, Except.pure]
  · apply Nat.lt_pow_two_of_testBit
    intro j hj
    rw [hbits]
    unfold newuBit
    have hwj : word.testBit j = false := testBit_eq_false_of_lt_pow hword hj
    have h3 : ¬ (lsb ≤ j ∧ j < lsb + width) := by omega
    simp [h3, hwj]

theorem newu_eq (word width lsb value : Nat) (h1 : 1 ≤ width) (h2 : width + lsb ≤ 64)
    (hword : word < 2 ^ 64) (hv : value < 2 ^ width) :
    Bitpack_newu word width lsb value
      = .ok (2 ^ (lsb + width) * (word / 2 ^ (lsb + width))
          + (2 ^ lsb * value + word % 2 ^ lsb)) := by
  obtain ⟨r, hr, -, hbits⟩ := newu_bits word width lsb value h1 h2 hword hv
  rw [hr]
  congr 1
  have hlow : word % 2 ^ lsb < 2 ^ lsb := Nat.mod_lt _ (by positivity)
  have hmid : 2 ^ lsb * value + word % 2 ^ lsb < 2 ^ (lsb + width) := by
    have h3 : 2 ^ lsb * (value + 1) ≤ 2 ^ lsb * 2 ^ width := Nat.mul_le_mul_left _ hv
    rw [pow_add]
    linarith [Nat.mul_succ (2 ^ lsb) value]
  apply Nat.eq_of_testBit_eq
  intro j
  rw [hbits j, Nat.testBit_mul_pow_two_add _ hmid, Nat.testBit_mul_pow_two_add _ hlow,
    Nat.testBit_mod_two_pow, ← Nat.shiftRight_eq_div_pow, Nat.testBit_shiftRight]
  unfold newuBit
  by_cases h3 : lsb ≤ j
  · have h3n : ¬ j < lsb := by omega
    by_cases h4 : j < lsb + width
    · simp [h3, h4, h3n]
    · have h5 : lsb + width + (j - (lsb + width)) = j := by omega
      simp [h3, h4, h5]
  · have h3p : j < lsb := by omega
    have h4 : j < lsb + width := by omega
    simp [h3, h4, h3p]

/-- Unsigned round trip for widths 1 to 64: the field just inserted is read back. -/
theorem getu_newu (word width lsb value : Nat) (h1 : 1 ≤ width) (h2 : width + lsb ≤ 64)
    (hword : word < 2 ^ 64) (hv : value < 2 ^ width) :
    ∃ r, Bitpack_newu word width lsb value = .ok r ∧ Bitpack_getu r width lsb = .ok value := by
  obtain ⟨r, hr, -, hbits⟩ := newu_bits word width lsb value h1 h2 hword hv
  refine ⟨r, hr, ?_⟩
  rw [getu_eq r width lsb h1 h2]
  refine congrArg Except.ok ?_
  apply Nat.eq_of_testBit_eq
  intro j
  rw [Nat.testBit_mod_two_pow, ← Nat.shiftRight_eq_div_pow, Nat.testBit_shiftRight, hbits]
  unfold newuBit
  by_cases h3 : j < width
  · have h4 : lsb ≤ lsb + j ∧ lsb + j < lsb + width := by omega
    have h5 : lsb + j - lsb = j := by omega
    simp [h3, h4, h5]
  · simp [h3, testBit_eq_false_of_lt_pow hv (by omega : width ≤ j)]

/-! ## Signed insertion in terms of unsigned insertion -/

theorem toUInt64_toInt64 (u : Nat) (hu : u < 2 ^ 64) : toUInt64 (toInt64 u) = u := by
  unfold toUInt64 toInt64
  split_ifs <;> omega

theorem toUInt64_lt (i : Int) : toUInt64 i < 2 ^ 64 := by
  unfold toUInt64
  omega

theorem toUInt64_mul_pow (value : Int) (lsb : Nat) :
    toUInt64 (value * 2 ^ lsb) = (toUInt64 value * 2 ^ lsb) % 2 ^ 64 := by
  unfold toUInt64
  have h0 : (0 : Int) ≤ value % 2 ^ 64 := Int.emod_nonneg _ (by norm_num)
  have h1 : (0 : Int) ≤ (value * 2 ^ lsb) % 2 ^ 64 := Int.emod_nonneg _ (by norm_num)
  apply Int.ofNat_inj.1
  rw [Int.toNat_of_nonneg h1]
  simp only [Int.natCast_mod, Nat.cast_mul, Nat.cast_pow, Nat.cast_ofNat,
    Int.toNat_of_nonneg h0]
  exact (Int.ModEq.mul_right _ (Int.mod_modEq value (2 ^ 64))).symm

theorem toUInt64_mod_pow (value : Int) (width : Nat) (hw : width ≤ 64) :
    (value % 2 ^ width).toNat = toUInt64 value % 2 ^ width := by
  unfold toUInt64
  have h0 : (0 : Int) ≤ value % 2 ^ 64 := Int.emod_nonneg _ (by norm_num)
  have h1 : (0 : Int) ≤ value % 2 ^ width := Int.emod_nonneg _ (by positivity)
  apply Int.ofNat_inj.1
  rw [Int.toNat_of_nonneg h1]
  simp only [Int.natCast_mod, Nat.cast_pow, Nat.cast_ofNat, Int.toNat_of_nonneg h0]
  exact (Int.emod_emod_of_dvd value (pow_dvd_pow 2 hw)).symm

theorem insertion_eq (V width lsb : Nat) (h2 : width + lsb ≤ 64) :
    (((2 ^ width - 1) <<< lsb) % 2 ^ 64) &&& ((V * 2 ^ lsb) % 2 ^ 64)
      = ((V % 2 ^ width) <<< lsb) % 2 ^ 64 := by
  apply Nat.eq_of_testBit_eq
  intro j
  rw [Nat.testBit_land, testBit_fieldMask _ _ _ h2, ← Nat.shiftLeft_eq,
    Nat.testBit_mod_two_pow, Nat.testBit_mod_two_pow, Nat.testBit_shiftLeft,
    Nat.testBit_shiftLeft, Nat.testBit_mod_two_pow]
  by_cases h3 : lsb ≤ j <;> by_cases h4 : j < lsb + width <;> by_cases h5 : j < 64 <;>
    simp [h3, h4, h5]
  · intro _
    omega
  · intro h6
    exfalso; omega

theorem news_eq_newu (word width lsb : Nat) (value : Int) (h1 : 1 ≤ width)
    (h2 : width + lsb ≤ 64) (hfit : Bitpack_fitss value width = true) :
    Bitpack_news word width lsb value
      = Bitpack_newu word width lsb (value % 2 ^ width).toNat := by
  have hm : (width + lsb) % 2 ^ 32 = width + lsb := Nat.mod_eq_of_lt (by omega)
  have ha : 64 - width < 64 := by omega
  have hb : lsb < 64 := by omega
  have hc : width ≤ 64 := by omega
  have hlt : (value % 2 ^ width).toNat < 2 ^ width := by
    have h0 : (0 : Int) ≤ value % 2 ^ width := Int.emod_nonneg _ (by positivity)
    have h3 : value % 2 ^ width < 2 ^ width := Int.emod_lt_of_pos _ (by positivity)
    apply Int.ofNat_lt.1
    rw [Int.toNat_of_nonneg h0]
    exact_mod_cast h3
  have hf : Bitpack_fitsu (value % 2 ^ width).toNat width = true :=
    (fitsu_iff _ _).2 (Or.inr hlt)
  simp only [Bitpack_news, Bitpack_newu, WORDSIZE, hm, shr64, shl64, shlS64, ha, hb, hc, h2, hf,
    hfit, not_true_eq_false, if_false, if_true, bind, Except.bind, mask_shr width hc, pure,
    Except.pure]
  rw [toUInt64_toInt64 _ (toUInt64_lt _), toUInt64_mul_pow, insertion_eq _ _ _ h2,
    toUInt64_mod_pow _ _ hc]

/-! ## Violated width and offset preconditions -/

/-- When `width` exceeds 64, or the sum `width + lsb` as computed on `unsigned`
exceeds 64, each of the four operations stops with the assertion failure. -/
theorem precondition_assertion (word width lsb value : Nat) (svalue : Int)
    (h : 64 < width ∨ 64 < (width + lsb) % 4294967296) :
    Bitpack_getu word width lsb = .error .assertion ∧
      Bitpack_gets word width lsb = .error .assertion ∧
      Bitpack_newu word width lsb value = .error .assertion ∧
      Bitpack_news word width lsb svalue = .error .assertion := by
  have hg : Bitpack_getu word width lsb = .error .assertion := by
    unfold Bitpack_getu WORDSIZE
    rcases h with h | h
    · rw [if_pos (by omega)]
    · by_cases hw : width ≤ 64
      · rw [if_neg (by omega), if_pos (by norm_num; omega)]
      · rw [if_pos hw]
  refine ⟨hg, ?_, ?_, ?_⟩
  · unfold Bitpack_gets
    rw [hg]
    rfl
  · unfold Bitpack_newu WORDSIZE
    rcases h with h | h
    · rw [if_pos (by omega)]
    · by_cases hw : width ≤ 64
      · rw [if_neg (by omega), if_pos (by norm_num; omega)]
      · rw [if_pos hw]
  · unfold Bitpack_news WORDSIZE
    rcases h with h | h
    · rw [if_pos (by omega)]
    · by_cases hw : width ≤ 64
      · rw [if_neg (by omega), if_pos (by norm_num; omega)]
      · rw [if_pos hw]

/-! ## The signed range test -/

theorem fitss_iff (n : Int) (width : Nat) :
    Bitpack_fitss n width = true ↔
      (64 ≤ width ∨ (width = 0 ∧ n = -1) ∨
        (1 ≤ width ∧ -2 ^ (width - 1) ≤ n ∧ n < 2 ^ (width - 1))) := by
  unfold Bitpack_fitss WORDSIZE
  by_cases h : 64 ≤ width
  · simp [h]
  by_cases h0 : width = 0
  · subst h0
    simp
  have h1 : 1 ≤ width := by omega
  have hle : 2 ^ (width - 1) ≤ 2 ^ 62 := Nat.pow_le_pow_right (by decide) (by omega)
  have hpos : 0 < 2 ^ (width - 1) := by positivity
  have hmag : (1 <<< (width - 1)) % 2 ^ 64 = 2 ^ (width - 1) := by
    rw [Nat.shiftLeft_eq, one_mul]
    exact Nat.mod_eq_of_lt (by omega)
  have hmin : toInt64 (((2 ^ 64 - 1) * 2 ^ (width - 1)) % 2 ^ 64) = -2 ^ (width - 1) := by
    have hcast : ((2 ^ (width - 1) : Nat) : Int) = 2 ^ (width - 1) := by push_cast; rfl
    rw [← hcast]
    generalize 2 ^ (width - 1) = m at hle hpos
    unfold toInt64
    split_ifs <;> omega
  have hmax : toInt64 (2 ^ (width - 1)) = 2 ^ (width - 1) := by
    have hcast : ((2 ^ (width - 1) : Nat) : Int) = 2 ^ (width - 1) := by push_cast; rfl
    rw [← hcast]
    generalize 2 ^ (width - 1) = m at hle hpos
    unfold toInt64
    split_ifs <;> omega
  simp only [h, h0, if_false, hmag, hmin, hmax, Bool.and_eq_true, decide_eq_true_eq, false_and,
    false_or, h1, true_and]

/-! ## Signed extraction for fields of at most 53 bits -/

theorem bitLength_le (fuel : Nat) : ∀ n k : Nat, n < 2 ^ k → bitLength fuel n ≤ k := by
  induction fuel with
  | zero => intro n k _; simp [bitLength]
  | succ f ih =>
    intro n k h
    unfold bitLength
    split_ifs with h0
    · exact Nat.zero_le _
    · cases k with
      | zero => simp at h; exact absurd h h0
      | succ k =>
        have h2 : n / 2 < 2 ^ k := by
          rw [pow_succ] at h
          omega
        exact Nat.succ_le_succ (ih _ _ h2)

theorem u64ToDouble_small (n : Nat) (h : n < 2 ^ 53) : u64ToDouble n = n := by
  unfold u64ToDouble
  simp [bitLength_le 64 n 53 h]

theorem gets_eq_small (word width lsb : Nat) (h1 : 1 ≤ width) (hw : width ≤ 53)
    (h2 : width + lsb ≤ 64) :
    Bitpack_gets word width lsb
      = .ok (if 2 ^ (width - 1) ≤ word / 2 ^ lsb % 2 ^ width
          then ((word / 2 ^ lsb % 2 ^ width : Nat) : Int) - 2 ^ width
          else ((word / 2 ^ lsb % 2 ^ width : Nat) : Int)) := by
  have hu : word / 2 ^ lsb % 2 ^ width < 2 ^ width := Nat.mod_lt _ (by positivity)
  have hP : 2 ^ width ≤ 2 ^ 53 := Nat.pow_le_pow_right (by decide) hw
  have hPp : 2 ^ width = 2 * 2 ^ (width - 1) := by
    rw [← pow_succ']
    congr 1
    omega
  have hk : (width + 2 ^ 32 - 1) % 2 ^ 32 = width - 1 := by omega
  have hk2 : width - 1 < 1024 := by omega
  have h64 : width ≠ 64 := by omega
  have hsh : shl64 1 width = .ok (2 ^ width) := by
    unfold shl64
    rw [if_pos (by omega), Nat.shiftLeft_eq, one_mul, Nat.mod_eq_of_lt (by omega)]
  have hcast : ((2 ^ width : Nat) : Int) = 2 ^ width := by push_cast; rfl
  have hpow : pow2Double ((width + 2 ^ 32 - 1) % 2 ^ 32) = some (2 ^ (width - 1)) := by
    rw [hk]
    unfold pow2Double
    rw [if_pos hk2]
  unfold Bitpack_gets
  rw [getu_eq word width lsb h1 h2, hpow, hsh]
  simp only [bind, Except.bind, u64ToDouble_small _ (lt_of_lt_of_le hu hP), geDouble, h64,
    ne_eq, not_false_eq_true, decide_True, Bool.and_true, decide_eq_true_eq, pure,
    Except.pure]
  rw [← hcast]
  generalize word / 2 ^ lsb % 2 ^ width = u at hu ⊢
  generalize 2 ^ width = P at hu hP hPp ⊢
  generalize 2 ^ (width - 1) = p at hPp ⊢
  split_ifs with h3
  · refine congrArg Except.ok ?_
    unfold toInt64
    split_ifs <;> omega
  · refine congrArg Except.ok ?_
    unfold toInt64
    split_ifs <;> omega

/-! ## Insertion into a word whose field and lower bits are clear -/

theorem newu_add (word width lsb value : Nat) (h1 : 1 ≤ width) (h2 : width + lsb ≤ 64)
    (hword : word < 2 ^ 64) (hv : value < 2 ^ width) (hz : word % 2 ^ (lsb + width) = 0) :
    Bitpack_newu word width lsb value = .ok (word + value * 2 ^ lsb) := by
  rw [newu_eq word width lsb value h1 h2 hword hv]
  refine congrArg Except.ok ?_
  have hd : 2 ^ (lsb + width) ∣ word := Nat.dvd_of_mod_eq_zero hz
  have hl : word % 2 ^ lsb = 0 :=
    Nat.mod_eq_zero_of_dvd ((pow_dvd_pow 2 (Nat.le_add_right lsb width)).trans hd)
  rw [Nat.mul_div_cancel' hd, hl]
  ring

theorem emod_toNat_lt (value : Int) (width : Nat) : (value % 2 ^ width).toNat < 2 ^ width := by
  have h0 : (0 : Int) ≤ value % 2 ^ width := Int.emod_nonneg _ (by positivity)
  have h3 : value % 2 ^ width < 2 ^ width := Int.emod_lt_of_pos _ (by positivity)
  apply Int.ofNat_lt.1
  rw [Int.toNat_of_nonneg h0]
  exact_mod_cast h3

theorem news_add (word width lsb : Nat) (value : Int) (h1 : 1 ≤ width) (h2 : width + lsb ≤ 64)
    (hword : word < 2 ^ 64) (hfit : Bitpack_fitss value width = true)
    (hz : word % 2 ^ (lsb + width) = 0) :
    Bitpack_news word width lsb value = .ok (word + (value % 2 ^ width).toNat * 2 ^ lsb) := by
  rw [news_eq_newu word width lsb value h1 h2 hfit]
  exact newu_add word width lsb _ h1 h2 hword (emod_toNat_lt value width) hz

theorem fitss_six (b : Int) (h : -32 ≤ b ∧ b ≤ 31) : Bitpack_fitss b 6 = true := by
  refine (fitss_iff b 6).2 (Or.inr (Or.inr ⟨by norm_num, ?_, ?_⟩))
  · norm_num
    exact h.1
  · norm_num
    omega

theorem make_codeword_eq (pb pr a : Nat) (b c d : Int) (ha : a ≤ 63)
    (hb : -32 ≤ b ∧ b ≤ 31) (hc : -32 ≤ c ∧ c ≤ 31) (hd : -32 ≤ d ∧ d ≤ 31)
    (hpb : pb ≤ 15) (hpr : pr ≤ 15) :
    make_codeword pb pr a b c d
      = .ok (a * 2 ^ 26 + (b % 64).toNat * 2 ^ 20 + (c % 64).toNat * 2 ^ 14
          + (d % 64).toNat * 2 ^ 8 + pb * 2 ^ 4 + pr) := by
  have hB : (b % 2 ^ 6).toNat < 2 ^ 6 := emod_toNat_lt b 6
  have hC : (c % 2 ^ 6).toNat < 2 ^ 6 := emod_toNat_lt c 6
  have hD : (d % 2 ^ 6).toNat < 2 ^ 6 := emod_toNat_lt d 6
  have e64 : (64 : Int) = 2 ^ 6 := by norm_num
  rw [e64]
  generalize hBd : (b % 2 ^ 6).toNat = B at hB
  generalize hCd : (c % 2 ^ 6).toNat = C at hC
  generalize hDd : (d % 2 ^ 6).toNat = D at hD
  have s1 : Bitpack_newu 0 6 26 a = .ok (0 + a * 2 ^ 26) :=
    newu_add 0 6 26 a (by norm_num) (by norm_num) (by norm_num) (by norm_num; omega)
      (by norm_num)
  have s2 : Bitpack_news (0 + a * 2 ^ 26) 6 20 b = .ok (0 + a * 2 ^ 26 + B * 2 ^ 20) := by
    rw [← hBd]
    exact news_add _ 6 20 b (by norm_num) (by norm_num) (by norm_num; omega) (fitss_six b hb)
      (by norm_num)
  have s3 : Bitpack_news (0 + a * 2 ^ 26 + B * 2 ^ 20) 6 14 c
      = .ok (0 + a * 2 ^ 26 + B * 2 ^ 20 + C * 2 ^ 14) := by
    rw [← hCd]
    exact news_add _ 6 14 c (by norm_num) (by norm_num) (by norm_num at hB ⊢; omega)
      (fitss_six c hc) (by norm_num at hB ⊢; omega)
  have s4 : Bitpack_news (0 + a * 2 ^ 26 + B * 2 ^ 20 + C * 2 ^ 14) 6 8 d
      = .ok (0 + a * 2 ^ 26 + B * 2 ^ 20 + C * 2 ^ 14 + D * 2 ^ 8) := by
    rw [← hDd]
    exact news_add _ 6 8 d (by norm_num) (by norm_num) (by norm_num at hB hC ⊢; omega)
      (fitss_six d hd) (by norm_num at hB hC ⊢; omega)
  have s5 : Bitpack_newu (0 + a * 2 ^ 26 + B * 2 ^ 20 + C * 2 ^ 14 + D * 2 ^ 8) 4 4 pb
      = .ok (0 + a * 2 ^ 26 + B * 2 ^ 20 + C * 2 ^ 14 + D * 2 ^ 8 + pb * 2 ^ 4) :=
    newu_add _ 4 4 pb (by norm_num) (by norm_num) (by norm_num at hB hC hD ⊢; omega)
      (by norm_num; omega) (by norm_num at hB hC hD ⊢; omega)
  have s6 : Bitpack_newu (0 + a * 2 ^ 26 + B * 2 ^ 20 + C * 2 ^ 14 + D * 2 ^ 8 + pb * 2 ^ 4)
      4 0 pr
      = .ok (0 + a * 2 ^ 26 + B * 2 ^ 20 + C * 2 ^ 14 + D * 2 ^ 8 + pb * 2 ^ 4 + pr * 2 ^ 0) :=
    newu_add _ 4 0 pr (by norm_num) (by norm_num) (by norm_num at hB hC hD ⊢; omega)
      (by norm_num; omega) (by norm_num at hB hC hD ⊢; omega)
  unfold make_codeword
  simp only [bind, Except.bind, pure, Except.pure, s1, s2, s3, s4, s5, s6]
  refine congrArg Except.ok ?_
  ring

/-! ## Decoding what `make_codeword` built -/

theorem decode_make_codeword (pb pr a : Nat) (b c d : Int) (ha : a ≤ 63)
    (hb : -32 ≤ b ∧ b ≤ 31) (hc : -32 ≤ c ∧ c ≤ 31) (hd : -32 ≤ d ∧ d ≤ 31)
    (hpb : pb ≤ 15) (hpr : pr ≤ 15) :
    decode_codeword_fields (a * 2 ^ 26 + (b % 64).toNat * 2 ^ 20 + (c % 64).toNat * 2 ^ 14
        + (d % 64).toNat * 2 ^ 8 + pb * 2 ^ 4 + pr) = .ok ⟨a, b, c, d, pb, pr⟩ := by
  unfold decode_codeword_fields
  rw [getu_eq _ 6 26 (by norm_num) (by norm_num), getu_eq _ 4 4 (by norm_num) (by norm_num),
    getu_eq _ 4 0 (by norm_num) (by norm_num),
    gets_eq_small _ 6 20 (by norm_num) (by norm_num) (by norm_num),
    gets_eq_small _ 6 14 (by norm_num) (by norm_num) (by norm_num),
    gets_eq_small _ 6 8 (by norm_num) (by norm_num) (by norm_num)]
  simp only [bind, Except.bind, pure, Except.pure]
  refine congrArg Except.ok ?_
  norm_num
  refine ⟨?_, ?_, ?_, ?_, ?_, ?_⟩
  · omega
  · split_ifs <;> omega
  · split_ifs <;> omega
  · split_ifs <;> omega
  · omega
  · omega

/-! ## The linear transforms over exact arithmetic -/

theorem lumas_to_dct_eq (y1 y2 y3 y4 : ℚ) :
    lumas_to_dct [y1, y2, y3, y4]
      = [(y1 + y2 + y3 + y4) / 4, (y4 + y3 - y2 - y1) / 4, (y4 - y3 + y2 - y1) / 4,
          (y4 - y3 - y2 + y1) / 4] := by
  simp only [lumas_to_dct, MatfMultiply, LUMAS_TO_DCT, List.range_succ, List.range_zero,
    List.nil_append, List.cons_append, List.map_cons, List.map_nil, List.foldl_cons,
    List.foldl_nil, List.getD_cons_zero, List.getD_cons_succ]
  norm_num
  refine ⟨?_, ?_, ?_, ?_⟩ <;> ring

theorem dct_to_lumas_eq (a b c d : ℚ) :
    dct_to_lumas [a, b, c, d] = [a - b - c + d, a - b + c - d, a + b - c - d, a + b + c + d] := by
  simp only [dct_to_lumas, MatfMultiply, DCT_TO_LUMAS, List.range_succ, List.range_zero,
    List.nil_append, List.cons_append, List.map_cons, List.map_nil, List.foldl_cons,
    List.foldl_nil, List.getD_cons_zero, List.getD_cons_succ]
  norm_num
  refine ⟨?_, ?_, ?_⟩ <;> ring

theorem rgb_to_cspace_eq (r g b : ℚ) :
    rgb_to_cspace [r, g, b]
      = [0.299 * r + 0.587 * g + 0.114 * b, -0.168736 * r + -0.331264 * g + 0.5 * b,
          0.5 * r + -0.418688 * g + -0.081312 * b] := by
  simp only [rgb_to_cspace, MatfMultiply, RGB_TO_COLORSPACE, List.range_succ, List.range_zero,
    List.nil_append, List.cons_append, List.map_cons, List.map_nil, List.foldl_cons,
    List.foldl_nil, List.getD_cons_zero, List.getD_cons_succ]
  norm_num

theorem cspace_to_rgb_eq (y pb pr : ℚ) :
    cspace_to_rgb [y, pb, pr]
      = [y + 1.402 * pr, y + -0.344136 * pb + -0.714136 * pr, y + 1.772 * pb] := by
  simp only [cspace_to_rgb, MatfMultiply, COLORSPACE_TO_RGB, List.range_succ, List.range_zero,
    List.nil_append, List.cons_append, List.map_cons, List.map_nil, List.foldl_cons,
    List.foldl_nil, List.getD_cons_zero, List.getD_cons_succ]
  norm_num

/-- The colour transform followed by its inverse: the identity plus an error
term whose coefficients are at most `9 / 15625000`. -/
theorem cspace_to_rgb_rgb_to_cspace (r g b : ℚ) :
    cspace_to_rgb (rgb_to_cspace [r, g, b])
      = [r + (9 * b - 9 * g) / 15625000,
          g + (258 * r + 81 * g - 339 * b) / 1953125000,
          b + (3 * g - 3 * r) / 15625000] := by
  rw [rgb_to_cspace_eq, cspace_to_rgb_eq]
  norm_num
  refine ⟨?_, ?_, ?_⟩ <;> ring

/-! ## Rounding -/

theorem c_round_eq (n : Int) (x : ℚ) (h1 : (n : ℚ) - 1 / 2 < x) (h2 : x < (n : ℚ) + 1 / 2) :
    c_round x = n := by
  unfold c_round
  split_ifs with h
  · rw [Int.floor_eq_iff]
    constructor <;> linarith
  · rw [Int.ceil_eq_iff]
    constructor <;> linarith

theorem c_round_le (n : Int) (x : ℚ) (hn : 0 ≤ n) (h : x < (n : ℚ) + 1 / 2) :
    c_round x ≤ n := by
  unfold c_round
  split_ifs with h0
  · have h3 : ⌊x + 1 / 2⌋ < n + 1 := by
      rw [Int.floor_lt]
      push_cast
      linarith
    omega
  · rw [Int.ceil_le]
    have : (0 : ℚ) ≤ n := by exact_mod_cast hn
    linarith

theorem le_c_round (n : Int) (x : ℚ) (hn : n ≤ 0) (h : (n : ℚ) - 1 / 2 < x) :
    n ≤ c_round x := by
  unfold c_round
  split_ifs with h0
  · have h3 : (0 : Int) ≤ ⌊x + 1 / 2⌋ := by
      rw [Int.le_floor]
      push_cast
      linarith
    omega
  · have h3 : n - 1 < ⌈x - 1 / 2⌉ := by
      rw [Int.lt_ceil]
      push_cast
      linarith
    omega

theorem scale_DCT_range (x : ℚ) : -31 ≤ scale_DCT x ∧ scale_DCT x ≤ 31 := by
  unfold scale_DCT
  constructor
  · apply le_c_round _ _ (by norm_num)
    split_ifs with h1 h2
    · norm_num
    · norm_num
    · norm_num at *
      linarith
  · apply c_round_le _ _ (by norm_num)
    split_ifs with h1 h2
    · norm_num
    · norm_num
    · norm_num at *
      linarith

/-! ## The block traversal -/

theorem map_2by2_cols_eq {σ : Type} (func : Int → Int → σ → Except Fault σ) (w : Nat)
    (row : Int) : ∀ (n k : Nat) (s : σ), k + n = w / 2 →
      map_2by2_cols func (w : Int) row (2 * (k : Int)) s
        = (List.range' k n).foldlM (fun s (i : Nat) => func (2 * (i : Int)) row s) s := by
  intro n
  induction n with
  | zero =>
    intro k s hk
    rw [map_2by2_cols, dif_neg (by omega)]
    rfl
  | succ n ih =>
    intro k s hk
    rw [map_2by2_cols, dif_pos (by omega), List.range'_succ, List.foldlM_cons]
    refine congrArg _ (funext fun s1 => ?_)
    have h2 : (2 * (k : Int) + 2) = 2 * ((k + 1 : Nat) : Int) := by push_cast; ring
    rw [h2]
    exact ih (k + 1) s1 (by omega)

theorem map_2by2_rows_eq {σ : Type} (func : Int → Int → σ → Except Fault σ) (w h : Nat) :
    ∀ (n k : Nat) (s : σ), k + n = h / 2 →
      map_2by2_rows func (w : Int) (h : Int) (2 * (k : Int)) s
        = (List.range' k n).foldlM (fun s (j : Nat) =>
            (List.range (w / 2)).foldlM (fun s (i : Nat) => func (2 * (i : Int)) (2 * (j : Int)) s) s)
            s := by
  intro n
  induction n with
  | zero =>
    intro k s hk
    rw [map_2by2_rows, dif_neg (by omega)]
    rfl
  | succ n ih =>
    intro k s hk
    have hc := map_2by2_cols_eq func w (2 * (k : Int)) (w / 2) 0 s (by omega)
    rw [Nat.cast_zero, mul_zero, ← List.range_eq_range'] at hc
    rw [map_2by2_rows, dif_pos (by omega), List.range'_succ, List.foldlM_cons, hc]
    refine congrArg _ (funext fun s1 => ?_)
    have h2 : (2 * (k : Int) + 2) = 2 * ((k + 1 : Nat) : Int) := by push_cast; ring
    rw [h2]
    exact ih (k + 1) s1 (by omega)

theorem foldlM_map_origin {σ : Type} (f : Int → Int → σ → Except Fault σ) (j : Nat) :
    ∀ (cols : List Nat) (s : σ),
      (cols.map fun (i : Nat) => ((2 * (i : Int)), (2 * (j : Int)))).foldlM (fun s p => f p.1 p.2 s) s
        = cols.foldlM (fun s (i : Nat) => f (2 * (i : Int)) (2 * (j : Int)) s) s := by
  intro cols
  induction cols with
  | nil => intro s; rfl
  | cons i cols ih =>
    intro s
    rw [List.map_cons, List.foldlM_cons, List.foldlM_cons]
    exact congrArg _ (funext fun s1 => ih s1)

theorem foldlM_flatMap_origin {σ : Type} (f : Int → Int → σ → Except Fault σ) (cols : List Nat) :
    ∀ (rows : List Nat) (s : σ),
      (rows.flatMap fun (j : Nat) => cols.map fun (i : Nat) => ((2 * (i : Int)), (2 * (j : Int)))).foldlM
          (fun s p => f p.1 p.2 s) s
        = rows.foldlM (fun s (j : Nat) => cols.foldlM (fun s (i : Nat) => f (2 * (i : Int)) (2 * (j : Int)) s) s)
            s := by
  intro rows
  induction rows with
  | nil => intro s; rfl
  | cons j rows ih =>
    intro s
    rw [List.flatMap_cons, List.foldlM_append, List.foldlM_cons, foldlM_map_origin]
    exact congrArg _ (funext fun s1 => ih s1)

/-- The traversal `map_2by2` applies the function to the block origins in
row-major order, stopping at the first fault. -/
theorem map_2by2_eq {σ : Type} (func : Int → Int → σ → Except Fault σ) (w h : Nat) (s : σ) :
    map_2by2 func (w : Int) (h : Int) s
      = (blockOrigins w h).foldlM (fun s p => func p.1 p.2 s) s := by
  have hr := map_2by2_rows_eq func w h (h / 2) 0 s (by omega)
  rw [Nat.cast_zero, mul_zero, ← List.range_eq_range'] at hr
  unfold map_2by2 blockOrigins
  rw [hr, foldlM_flatMap_origin]

theorem flatMap_range_eq {α : Type} (m : Nat) (g : Nat → Nat → α) : ∀ n : Nat,
    ((List.range n).flatMap fun (j : Nat) => (List.range m).map fun (i : Nat) => g i j)
      = (List.range (m * n)).map fun (k : Nat) => g (k % m) (k / m) := by
  intro n
  induction n with
  | zero => simp
  | succ n ih =>
    rw [List.range_succ, List.flatMap_append, List.flatMap_singleton, ih, Nat.mul_succ,
      List.range_add, List.map_append, List.map_map]
    congr 1
    apply List.map_congr_left
    intro i hi
    have hi2 : i < m := List.mem_range.1 hi
    have hm : 0 < m := by omega
    simp only [Function.comp]
    rw [Nat.mul_add_mod, Nat.mod_eq_of_lt hi2, Nat.mul_add_div hm, Nat.div_eq_of_lt hi2,
      Nat.add_zero]

theorem blockOrigins_eq_map (w h : Nat) :
    blockOrigins w h = (List.range (w / 2 * (h / 2))).map fun (k : Nat) =>
      ((2 * ((k % (w / 2) : Nat) : Int)), (2 * ((k / (w / 2) : Nat) : Int))) := by
  unfold blockOrigins
  exact flatMap_range_eq (w / 2) (fun i j => ((2 * (i : Int)), (2 * (j : Int)))) (h / 2)

theorem blockOrigins_length (w h : Nat) : (blockOrigins w h).length = w / 2 * (h / 2) := by
  rw [blockOrigins_eq_map, List.length_map, List.length_range]

theorem mem_blockOrigins (w h : Nat) (c r : Int) :
    (c, r) ∈ blockOrigins w h ↔
      (0 ≤ c ∧ 0 ≤ r ∧ c % 2 = 0 ∧ r % 2 = 0 ∧ c + 1 < w ∧ r + 1 < h) := by
  unfold blockOrigins
  simp only [List.mem_flatMap, List.mem_map, List.mem_range, Prod.mk.injEq]
  constructor
  · rintro ⟨j, hj, i, hi, rfl, rfl⟩
    omega
  · rintro ⟨hc, hr, hc2, hr2, hcw, hrh⟩
    refine ⟨(r / 2).toNat, by omega, (c / 2).toNat, by omega, by omega, by omega⟩

theorem blockOrigins_nodup (w h : Nat) : (blockOrigins w h).Nodup := by
  rw [blockOrigins_eq_map]
  refine List.Nodup.map_on ?_ (List.nodup_range _)
  intro x _ y _ hxy
  simp only [Prod.mk.injEq] at hxy
  have h1 : x % (w / 2) = y % (w / 2) := by omega
  have h2 : x / (w / 2) = y / (w / 2) := by omega
  rw [← Nat.div_add_mod x (w / 2), ← Nat.div_add_mod y (w / 2), h1, h2]

theorem foldlM_record {α : Type} : ∀ (l s : List α),
    l.foldlM (fun (s : List α) (p : α) => (Except.ok (s ++ [p]) : Except Fault (List α))) s
      = .ok (s ++ l) := by
  intro l
  induction l with
  | nil => intro s; simp [pure, Except.pure]
  | cons p l ih =>
    intro s
    rw [List.foldlM_cons]
    simp only [bind, Except.bind]
    rw [ih]
    simp

/-! ## Compression output -/

theorem pack_block_emit_eq (codeword : Nat) (out : List Nat) :
    pack_block_emit codeword out
      = out ++ [byteOf codeword 3, byteOf codeword 2, byteOf codeword 1, byteOf codeword 0] := by
  simp [pack_block_emit]

theorem encode_2by2_length (index_of_chroma : ℚ → Nat) (pixels : Int → Int → Pnm_rgb)
    (denominator : Nat) (col row : Int) (out out1 : List Nat)
    (h : encode_2by2 index_of_chroma pixels denominator col row out = .ok out1) :
    ∃ bytes, out1 = out ++ bytes ∧ bytes.length = 4 := by
  unfold encode_2by2 pack_block at h
  simp only [bind, Except.bind, pure, Except.pure] at h
  split at h
  · exact absurd h (by simp)
  · split at h
    · exact absurd h (by simp)
    · rw [pack_block_emit_eq] at h
      injection h with h
      exact ⟨_, h.symm, rfl⟩

theorem encode_foldlM_length (index_of_chroma : ℚ → Nat) (pixels : Int → Int → Pnm_rgb)
    (denominator : Nat) : ∀ (l : List (Int × Int)) (out out1 : List Nat),
      l.foldlM (fun s p => encode_2by2 index_of_chroma pixels denominator p.1 p.2 s) out
          = .ok out1 →
      ∃ body, out1 = out ++ body ∧ body.length = 4 * l.length := by
  intro l
  induction l with
  | nil =>
    intro out out1 h
    simp only [List.foldlM_nil, pure, Except.pure] at h
    injection h with h
    exact ⟨[], by simp [h], rfl⟩
  | cons p l ih =>
    intro out out1 h
    rw [List.foldlM_cons] at h
    simp only [bind, Except.bind] at h
    split at h
    · exact absurd h (by simp)
    · rename_i out2 h2
      obtain ⟨bytes, hb, hlen⟩ := encode_2by2_length _ _ _ _ _ _ _ h2
      obtain ⟨body, hbody, hblen⟩ := ih _ _ h
      refine ⟨bytes ++ body, ?_, ?_⟩
      · rw [hbody, hb, List.append_assoc]
      · rw [List.length_append, hlen, hblen, List.length_cons]
        ring

theorem encode_2by2_black (col row : Int) (out : List Nat) :
    encode_2by2 (fun _ => 0) (fun _ _ => blackPixel) 255 col row out
      = .ok (out ++ [0, 0, 0, 0]) := by
  have hc : getCompressed (fun _ _ => blackPixel) col row 255 = ⟨[0, 0, 0, 0], 0, 0⟩ := by
    have h0 : pixel_to_rgb blackPixel 255 = [0, 0, 0] := by
      simp [pixel_to_rgb, blackPixel]
    have h1 : rgb_to_cspace [0, 0, 0] = [0, 0, 0] := by
      rw [rgb_to_cspace_eq]
      norm_num
    have h2 : lumas_to_dct [0, 0, 0, 0] = [0, 0, 0, 0] := by
      rw [lumas_to_dct_eq]
      norm_num
    simp [getCompressed, Compress_CSBlock, List.range_succ, h0, h1, h2]
  have hr : c_round ((0 : ℚ) * 63.0) = 0 := c_round_eq 0 _ (by norm_num) (by norm_num)
  have hs : scale_DCT 0 = 0 := by
    unfold scale_DCT
    norm_num
    exact c_round_eq 0 _ (by norm_num) (by norm_num)
  have hm : make_codeword 0 0 0 0 0 0 = .ok 0 := by decide
  unfold encode_2by2 pack_block
  rw [hc]
  simp only [List.getD_cons_zero, List.getD_cons_succ, hr, hs, doubleToUnsigned, bind,
    Except.bind, pure, Except.pure]
  norm_num [hm, pack_block_emit_eq, byteOf]

theorem blockOrigins_5_3 : blockOrigins 5 3 = [(0, 0), (2, 0)] := by decide

theorem compress40_black_5_3 :
    compress40 (fun _ => 0) ⟨5, 3, 255, fun _ _ => blackPixel⟩
      = .ok (printf_header 4 2 ++ [0, 0, 0, 0, 0, 0, 0, 0]) := by
  unfold compress40
  simp only []
  rw [map_2by2_eq, blockOrigins_5_3]
  simp [encode_2by2_black, bind, Except.bind, pure, Except.pure]

/-! ## Reading codewords -/

theorem decode_2by2_read_short (input : List Nat) (h : input.length < 4) :
    decode_2by2_read input = .error .shortFile := by
  unfold decode_2by2_read
  match input, h with
  | [], _ => rfl
  | [_], _ => rfl
  | [_, _], _ => rfl
  | [_, _, _], _ => rfl
  | _ :: _ :: _ :: _ :: _, h =>
    simp only [List.length_cons] at h
    omega

theorem decode_2by2_read_ok (input : List Nat) (h : 4 ≤ input.length) :
    ∃ cw rest, decode_2by2_read input = .ok (cw, rest) ∧ rest.length + 4 = input.length := by
  unfold decode_2by2_read
  match input, h with
  | [], h => simp at h
  | [_], h => simp at h
  | [_, _], h => simp at h
  | [_, _, _], h => simp at h
  | b0 :: b1 :: b2 :: b3 :: rest, _ =>
    exact ⟨_, rest, rfl, by simp⟩

theorem decode_codeword_ok (chroma_of_index : Nat → ℚ) (codeword : Nat) :
    ∃ c, decode_codeword chroma_of_index codeword = .ok c := by
  unfold decode_codeword decode_codeword_fields
  rw [getu_eq _ 6 26 (by norm_num) (by norm_num), getu_eq _ 4 4 (by norm_num) (by norm_num),
    getu_eq _ 4 0 (by norm_num) (by norm_num),
    gets_eq_small _ 6 20 (by norm_num) (by norm_num) (by norm_num),
    gets_eq_small _ 6 14 (by norm_num) (by norm_num) (by norm_num),
    gets_eq_small _ 6 8 (by norm_num) (by norm_num) (by norm_num)]
  exact ⟨_, rfl⟩

theorem decode_2by2_short (chroma_of_index : Nat → ℚ) (denominator : Nat) (col row : Int)
    (st : DecodeState) (h : st.input.length < 4) :
    decode_2by2 chroma_of_index denominator col row st = .error .shortFile := by
  unfold decode_2by2
  rw [decode_2by2_read_short _ h]
  rfl

theorem decode_2by2_ok (chroma_of_index : Nat → ℚ) (denominator : Nat) (col row : Int)
    (st : DecodeState) (h : 4 ≤ st.input.length) :
    ∃ st1, decode_2by2 chroma_of_index denominator col row st = .ok st1 ∧
      st1.input.length + 4 = st.input.length := by
  obtain ⟨cw, rest, hread, hlen⟩ := decode_2by2_read_ok _ h
  obtain ⟨c, hc⟩ := decode_codeword_ok chroma_of_index cw
  refine ⟨{ input := rest, pixels := setPixels st.pixels col row denominator c }, ?_, hlen⟩
  unfold decode_2by2
  rw [hread]
  simp only [bind, Except.bind, hc, pure, Except.pure]

theorem decode_foldlM (chroma_of_index : Nat → ℚ) (denominator : Nat) :
    ∀ (l : List (Int × Int)) (st : DecodeState),
      (st.input.length < 4 * l.length →
        l.foldlM (fun s p => decode_2by2 chroma_of_index denominator p.1 p.2 s) st
          = .error .shortFile) ∧
      (4 * l.length ≤ st.input.length →
        ∃ st1, l.foldlM (fun s p => decode_2by2 chroma_of_index denominator p.1 p.2 s) st
          = .ok st1) := by
  intro l
  induction l with
  | nil =>
    intro st
    exact ⟨fun h => by simp at h, fun _ => ⟨st, rfl⟩⟩
  | cons p l ih =>
    intro st
    rw [List.foldlM_cons, List.length_cons]
    by_cases h4 : st.input.length < 4
    · rw [decode_2by2_short _ _ _ _ _ h4]
      exact ⟨fun _ => rfl, fun h => by omega⟩
    · obtain ⟨st1, h1, hlen⟩ := decode_2by2_ok chroma_of_index denominator p.1 p.2 st (by omega)
      rw [h1]
      simp only [bind, Except.bind]
      exact ⟨fun h => (ih st1).1 (by omega), fun h => (ih st1).2 (by omega)⟩

theorem decompress40_blocks_cases (chroma_of_index : Nat → ℚ) (w h : Nat) (input : List Nat) :
    (input.length < 4 * (w / 2) * (h / 2) →
        decompress40_blocks chroma_of_index w h input = .error .shortFile) ∧
      (4 * (w / 2) * (h / 2) ≤ input.length →
        ∃ pixels, decompress40_blocks chroma_of_index w h input = .ok pixels) := by
  have hf := decode_foldlM chroma_of_index 255 (blockOrigins w h) { input := input, pixels := [] }
  rw [blockOrigins_length] at hf
  unfold decompress40_blocks
  rw [map_2by2_eq]
  constructor
  · intro hlt
    rw [hf.1 (by simp only []; linarith [mul_assoc 4 (w / 2) (h / 2)])]
    rfl
  · intro hge
    obtain ⟨st1, h1⟩ := hf.2 (by simp only []; linarith [mul_assoc 4 (w / 2) (h / 2)])
    rw [h1]
    exact ⟨st1.pixels, rfl⟩

/-! ## Blocks over exact arithmetic -/

theorem Compress_CSBlock_eq (y1 pb1 pr1 y2 pb2 pr2 y3 pb3 pr3 y4 pb4 pr4 : ℚ) :
    Compress_CSBlock [[y1, pb1, pr1], [y2, pb2, pr2], [y3, pb3, pr3], [y4, pb4, pr4]]
      = { dct_coeffs := [(y1 + y2 + y3 + y4) / 4, (y4 + y3 - y2 - y1) / 4,
            (y4 - y3 + y2 - y1) / 4, (y4 - y3 - y2 + y1) / 4],
          avg_pb := (pb1 + pb2 + pb3 + pb4) / 4,
          avg_pr := (pr1 + pr2 + pr3 + pr4) / 4 } := by
  simp only [Compress_CSBlock, List.range_succ, List.range_zero, List.nil_append,
    List.cons_append, List.map_cons, List.map_nil, List.foldl_cons, List.foldl_nil,
    List.getD_cons_zero, List.getD_cons_succ, lumas_to_dct_eq, zero_add]

/-- The colour-space triple of the pixel at `(col, row)`. -/
theorem getCompressed_eq (pixels : Int → Int → Pnm_rgb) (col row : Int) (denominator : Nat) :
    getCompressed pixels col row denominator
      = Compress_CSBlock
          [rgb_to_cspace (pixel_to_rgb (pixels col row) denominator),
           rgb_to_cspace (pixel_to_rgb (pixels (col + 1) row) denominator),
           rgb_to_cspace (pixel_to_rgb (pixels col (row + 1)) denominator),
           rgb_to_cspace (pixel_to_rgb (pixels (col + 1) (row + 1)) denominator)] := by
  simp [getCompressed, List.range_succ]

theorem Decompress_CSBlock_eq (a b c d pb pr : ℚ) :
    Decompress_CSBlock ⟨[a, b, c, d], pb, pr⟩
      = [[a - b - c + d, pb, pr], [a - b + c - d, pb, pr], [a + b - c - d, pb, pr],
          [a + b + c + d, pb, pr]] := by
  simp [Decompress_CSBlock, dct_to_lumas_eq, List.range_succ]

theorem setPixels_eq (array : Writes) (col row : Int) (denominator : Nat)
    (compressed : Compressed) :
    setPixels array col row denominator compressed
      = array ++
        [((col, row),
            rgb_to_pixel (cspace_to_rgb ((Decompress_CSBlock compressed).getD 0 [])) denominator),
         ((col + 1, row),
            rgb_to_pixel (cspace_to_rgb ((Decompress_CSBlock compressed).getD 1 [])) denominator),
         ((col, row + 1),
            rgb_to_pixel (cspace_to_rgb ((Decompress_CSBlock compressed).getD 2 [])) denominator),
         ((col + 1, row + 1),
            rgb_to_pixel (cspace_to_rgb ((Decompress_CSBlock compressed).getD 3 [])) denominator)]
      := by
  simp [setPixels, List.range_succ]

/-! ## Quantization of a block -/

theorem luma_range (p : Pnm_rgb) (d : Nat) (hd : 0 < d) (hr : 0 ≤ p.red ∧ p.red ≤ d)
    (hg : 0 ≤ p.green ∧ p.green ≤ d) (hb : 0 ≤ p.blue ∧ p.blue ≤ d) :
    ∃ y pb pr : ℚ, rgb_to_cspace (pixel_to_rgb p d) = [y, pb, pr] ∧ 0 ≤ y ∧ y ≤ 1 := by
  have hdq : (0 : ℚ) < d := by exact_mod_cast hd
  have hr0 : (0 : ℚ) ≤ (p.red : ℚ) / d := div_nonneg (by exact_mod_cast hr.1) hdq.le
  have hr1 : (p.red : ℚ) / d ≤ 1 := (div_le_one hdq).2 (by exact_mod_cast hr.2)
  have hg0 : (0 : ℚ) ≤ (p.green : ℚ) / d := div_nonneg (by exact_mod_cast hg.1) hdq.le
  have hg1 : (p.green : ℚ) / d ≤ 1 := (div_le_one hdq).2 (by exact_mod_cast hg.2)
  have hb0 : (0 : ℚ) ≤ (p.blue : ℚ) / d := div_nonneg (by exact_mod_cast hb.1) hdq.le
  have hb1 : (p.blue : ℚ) / d ≤ 1 := (div_le_one hdq).2 (by exact_mod_cast hb.2)
  unfold pixel_to_rgb
  rw [rgb_to_cspace_eq]
  refine ⟨_, _, _, rfl, ?_, ?_⟩
  · norm_num
    linarith
  · norm_num
    linarith

theorem scale_DCT_zero : scale_DCT 0 = 0 := by
  unfold scale_DCT
  norm_num
  exact c_round_eq 0 _ (by norm_num) (by norm_num)

theorem c_round_dc_range (a : ℚ) (h0 : 0 ≤ a) (h1 : a ≤ 1) :
    0 ≤ c_round (a * 63.0) ∧ c_round (a * 63.0) ≤ 63 := by
  constructor
  · apply le_c_round 0 _ (le_refl 0)
    norm_num
    linarith
  · apply c_round_le 63 _ (by norm_num)
    norm_num
    linarith

/-- When the rounded DC term is `n ≤ 63` and the chroma indices are at most 15,
`pack_block` emits the codeword with the layout of `make_codeword`. -/
theorem pack_block_eq (index_of_chroma : ℚ → Nat) (compressed : Compressed) (out : List Nat)
    (n : Nat) (hn : c_round (compressed.dct_coeffs.getD 0 0 * 63.0) = (n : Int)) (hn63 : n ≤ 63)
    (hpb : index_of_chroma compressed.avg_pb ≤ 15)
    (hpr : index_of_chroma compressed.avg_pr ≤ 15) :
    pack_block index_of_chroma compressed out
      = .ok (pack_block_emit
          (n * 2 ^ 26 + (scale_DCT (compressed.dct_coeffs.getD 1 0) % 64).toNat * 2 ^ 20
            + (scale_DCT (compressed.dct_coeffs.getD 2 0) % 64).toNat * 2 ^ 14
            + (scale_DCT (compressed.dct_coeffs.getD 3 0) % 64).toNat * 2 ^ 8
            + index_of_chroma compressed.avg_pb * 2 ^ 4
            + index_of_chroma compressed.avg_pr) out) := by
  have hconv : doubleToUnsigned (n : Int) = .ok n := by
    unfold doubleToUnsigned
    rw [if_pos ⟨by omega, by omega⟩]
    rfl
  have hb := scale_DCT_range (compressed.dct_coeffs.getD 1 0)
  have hc := scale_DCT_range (compressed.dct_coeffs.getD 2 0)
  have hd := scale_DCT_range (compressed.dct_coeffs.getD 3 0)
  have hm := make_codeword_eq (index_of_chroma compressed.avg_pb)
    (index_of_chroma compressed.avg_pr) n (scale_DCT (compressed.dct_coeffs.getD 1 0))
    (scale_DCT (compressed.dct_coeffs.getD 2 0)) (scale_DCT (compressed.dct_coeffs.getD 3 0))
    hn63 ⟨by omega, by omega⟩ ⟨by omega, by omega⟩ ⟨by omega, by omega⟩ hpb hpr
  unfold pack_block
  simp only [hn, hconv, bind, Except.bind, pure, Except.pure, hm]

theorem le_c_round_of_le (n : Int) (x : ℚ) (hn : 1 ≤ n) (h : (n : ℚ) - 1 / 2 ≤ x) :
    n ≤ c_round x := by
  have hnq : (1 : ℚ) ≤ n := by exact_mod_cast hn
  unfold c_round
  rw [if_pos (by linarith), Int.le_floor]
  linarith

theorem scale_unscale_DCT (q : Int) (h : -31 ≤ q ∧ q ≤ 31) : scale_DCT (unscale_DCT q) = q := by
  have h1 : (-31 : ℚ) ≤ q := by exact_mod_cast h.1
  have h2 : (q : ℚ) ≤ 31 := by exact_mod_cast h.2
  unfold scale_DCT unscale_DCT
  split_ifs with h3 h4
  · apply c_round_eq
    · norm_num at h3 ⊢
      linarith
    · norm_num at h3 ⊢
      linarith
  · apply c_round_eq
    · norm_num at h4 ⊢
      linarith
    · norm_num at h4 ⊢
      linarith
  · have he : (q : ℚ) / 103.33 * 103.33 = q := by
      rw [div_mul_cancel₀]
      norm_num
    show c_round ((q : ℚ) / 103.33 * 103.33) = q
    rw [he]
    apply c_round_eq <;> linarith

theorem round_dc_unscale (a : Nat) : c_round ((a : ℚ) / 63.0 * 63.0) = (a : Int) := by
  have he : (a : ℚ) / 63.0 * 63.0 = ((a : Int) : ℚ) := by
    rw [div_mul_cancel₀]
    · norm_num
    · norm_num
  rw [he]
  apply c_round_eq <;> linarith

/-! ## Reading back the decimal numbers of the header -/

theorem digitChar_toNat (d : Nat) (h : d < 10) : (Nat.digitChar d).toNat = 48 + d := by
  interval_cases d <;> rfl

theorem toDigitsCore_head : ∀ (fuel n : Nat) (ds : List Char),
    (0 < fuel ∨ ∃ m tl, m < 10 ∧ ds = Nat.digitChar m :: tl) →
      ∃ m tl, m < 10 ∧ Nat.toDigitsCore 10 fuel n ds = Nat.digitChar m :: tl := by
  intro fuel
  induction fuel with
  | zero =>
    intro n ds h
    rcases h with h | h
    · omega
    · simpa [Nat.toDigitsCore] using h
  | succ fuel ih =>
    intro n ds _
    simp only [Nat.toDigitsCore]
    split_ifs with h0
    · exact ⟨n % 10, ds, Nat.mod_lt _ (by decide), rfl⟩
    · exact ih (n / 10) _ (Or.inr ⟨n % 10, ds, Nat.mod_lt _ (by decide), rfl⟩)

theorem scan_digits_digit (acc d : Nat) (rest : List Nat) (h : d < 10) :
    scan_digits acc ((Nat.digitChar d).toNat :: rest) = scan_digits (acc * 10 + d) rest := by
  rw [digitChar_toNat d h]
  have hd : isdigit (48 + d) = true := by
    unfold isdigit
    simp
    omega
  rw [scan_digits, if_pos hd]
  congr 2
  omega

theorem scan_digits_toDigitsCore : ∀ (fuel n : Nat) (ds : List Char) (rest : List Nat),
    n < fuel →
      ∃ k, ∀ acc, scan_digits acc ((Nat.toDigitsCore 10 fuel n ds).map Char.toNat ++ rest)
        = scan_digits (acc * 10 ^ k + n) (ds.map Char.toNat ++ rest) := by
  intro fuel
  induction fuel with
  | zero => intro n ds rest h; omega
  | succ fuel ih =>
    intro n ds rest hn
    simp only [Nat.toDigitsCore]
    split_ifs with h0
    · refine ⟨1, fun acc => ?_⟩
      rw [List.map_cons, List.cons_append, scan_digits_digit _ _ _ (Nat.mod_lt _ (by decide))]
      congr 1
      omega
    · obtain ⟨k, hk⟩ := ih (n / 10) (Nat.digitChar (n % 10) :: ds) rest (by omega)
      refine ⟨k + 1, fun acc => ?_⟩
      rw [hk acc, List.map_cons, List.cons_append,
        scan_digits_digit _ _ _ (Nat.mod_lt _ (by decide))]
      congr 1
      rw [pow_succ]
      have := Nat.div_add_mod n 10
      linarith

theorem toString_toList (n : Nat) : (toString n).toList = Nat.toDigits 10 n := rfl

/-- The bytes of the decimal representation of `n` start with a digit. -/
theorem decimal_head (n : Nat) :
    ∃ m tl, m < 10 ∧ (toString n).toList.map Char.toNat = (48 + m) :: tl := by
  obtain ⟨m, tl, hm, h⟩ := toDigitsCore_head (n + 1) n [] (Or.inl (by omega))
  refine ⟨m, tl.map Char.toNat, hm, ?_⟩
  rw [toString_toList, Nat.toDigits, h, List.map_cons, digitChar_toNat m hm]

theorem skip_space_of_not_space (c : Nat) (rest : List Nat) (h : isspace c = false) :
    skip_space (c :: rest) = c :: rest := by
  rw [skip_space, if_neg (by simp [h])]

theorem skip_space_decimal (n : Nat) (rest : List Nat) :
    skip_space ((toString n).toList.map Char.toNat ++ rest)
      = (toString n).toList.map Char.toNat ++ rest := by
  obtain ⟨m, tl, hm, h⟩ := decimal_head n
  rw [h, List.cons_append]
  apply skip_space_of_not_space
  unfold isspace
  simp
  omega

theorem scan_digits_decimal (n c : Nat) (rest : List Nat) (hc : isdigit c = false) :
    scan_digits 0 ((toString n).toList.map Char.toNat ++ c :: rest) = (n, c :: rest) := by
  obtain ⟨k, hk⟩ := scan_digits_toDigitsCore (n + 1) n [] (c :: rest) (by omega)
  rw [toString_toList, Nat.toDigits, hk 0]
  simp only [List.map_nil, List.nil_append, zero_mul, zero_add]
  rw [scan_digits, if_neg (by simp [hc])]

theorem scan_unsigned_decimal (n c : Nat) (rest : List Nat) (hn : n < 2 ^ 32)
    (hc : isdigit c = false) :
    scan_unsigned ((toString n).toList.map Char.toNat ++ c :: rest)
      = .ok (some (n, c :: rest)) := by
  have hscan := scan_digits_decimal n c rest hc
  obtain ⟨m, tl, hm, h⟩ := decimal_head n
  unfold scan_unsigned
  rw [skip_space_decimal]
  rw [h] at hscan ⊢
  rw [List.cons_append] at hscan ⊢
  have hd : isdigit (48 + m) = true := by
    unfold isdigit
    simp
    omega
  have h43 : ¬ 48 + m = 43 := by omega
  have h45 : ¬ 48 + m = 45 := by omega
  simp only [h43, h45, if_false, hd, if_true, hscan, hn, Bool.false_eq_true]

theorem printf_header_eq (tw th : Nat) :
    printf_header tw th
      = "COMP40 Compressed image format 2\n".toList.map Char.toNat
        ++ ((toString tw).toList.map Char.toNat
          ++ 32 :: ((toString th).toList.map Char.toNat ++ [10])) := by
  unfold printf_header
  simp only [String.toList, String.data_append, List.map_append, List.append_assoc]
  rfl

theorem fscanf_literal (X : List Nat) :
    fscanf "COMP40 Compressed image format 2\n%u %u"
        ("COMP40 Compressed image format 2\n".toList.map Char.toNat ++ X)
      = fscanf_loop [.unsignedInt, .space, .unsignedInt] (skip_space X) [] := rfl

/-- On the header `compress40` writes, `fscanf` converts the two dimensions and
leaves the newline and the body. -/
theorem fscanf_printf_header (tw th : Nat) (body : List Nat) (htw : tw < 2 ^ 32)
    (hth : th < 2 ^ 32) :
    fscanf "COMP40 Compressed image format 2\n%u %u" (printf_header tw th ++ body)
      = .ok ([tw, th], 10 :: body) := by
  have h32 : isdigit 32 = false := by decide
  have h10 : isdigit 10 = false := by decide
  have hs32 : isspace 32 = true := by decide
  rw [printf_header_eq, List.append_assoc, fscanf_literal, List.append_assoc,
    skip_space_decimal, List.cons_append, List.append_assoc]
  simp only [fscanf_loop, scan_unsigned_decimal tw 32 _ htw h32, skip_space, hs32, if_true,
    skip_space_decimal, List.singleton_append, scan_unsigned_decimal th 10 _ hth h10,
    List.nil_append, List.cons_append]

/-! ## The literal text of the header -/

theorem strip_skip_space : ∀ input : List Nat, strip (skip_space input) = strip input := by
  intro input
  induction input with
  | nil => rfl
  | cons c rest ih =>
    unfold skip_space
    by_cases hc : isspace c = true
    · rw [if_pos hc, ih]
      simp [strip, hc]
    · rw [if_neg hc]

theorem fscanf_loop_literal_fail : ∀ (ds : List Directive), ds.all isLiteral = true →
    ∀ (tail : List Directive) (input values : List Nat),
      ¬ (ordinaryChars ds <+: strip input) →
        ∃ rest, fscanf_loop (ds ++ tail) input values = .ok (values, rest) := by
  intro ds
  induction ds with
  | nil =>
    intro _ tail input values h
    exact absurd (List.nil_prefix) h
  | cons d ds ih =>
    intro hall tail input values h
    rw [List.all_cons, Bool.and_eq_true] at hall
    cases d with
    | space =>
      rw [List.cons_append, fscanf_loop]
      apply ih hall.2
      rw [strip_skip_space]
      exact h
    | ordinary c =>
      rw [List.cons_append]
      cases input with
      | nil => exact ⟨[], by rw [fscanf_loop]⟩
      | cons x input1 =>
        rw [fscanf_loop]
        by_cases hx : x = c
        · subst hx
          rw [if_pos rfl]
          apply ih hall.2
          intro hp
          apply h
          have hns : (!isspace x) = true := hall.1
          have hs : strip (x :: input1) = x :: strip input1 := by
            simp [strip, List.filter_cons, hns]
          rw [hs]
          exact (List.cons_prefix_cons).2 ⟨rfl, hp⟩
        · rw [if_neg hx]
          exact ⟨_, rfl⟩
    | unsignedInt => exact absurd hall.1 (by decide)

theorem header_directives :
    scanf_directives "COMP40 Compressed image format 2\n%u %u".toList
      = scanf_directives "COMP40 Compressed image format 2\n".toList
        ++ [.unsignedInt, .space, .unsignedInt] := by
  decide

theorem header_directives_literal :
    (scanf_directives "COMP40 Compressed image format 2\n".toList).all isLiteral = true ∧
      ordinaryChars (scanf_directives "COMP40 Compressed image format 2\n".toList)
        = "COMP40Compressedimageformat2".toList.map Char.toNat := by
  decide

/-- When the input with its white space removed does not start with the literal
text with its white space removed, `fscanf` converts nothing. -/
theorem fscanf_literal_required (input : List Nat)
    (h : ¬ ("COMP40Compressedimageformat2".toList.map Char.toNat <+: strip input)) :
    ∃ rest, fscanf "COMP40 Compressed image format 2\n%u %u" input = .ok ([], rest) := by
  unfold fscanf
  rw [header_directives]
  apply fscanf_loop_literal_fail _ header_directives_literal.1
  rw [header_directives_literal.2]
  exact h

theorem decompress40_of_fscanf_count (chroma_of_index : Nat → ℚ)
    (Pnm_ppmwrite : Nat → Nat → Nat → Writes → List Nat) (input values rest : List Nat)
    (hf : fscanf "COMP40 Compressed image format 2\n%u %u" input = .ok (values, rest))
    (hlen : values.length ≠ 2) :
    decompress40 chroma_of_index Pnm_ppmwrite input
      = { stdout := [], outcome := .error .assertion } := by
  unfold decompress40
  rw [hf]
  match values, hlen with
  | [], _ => rfl
  | [_], _ => rfl
  | [_, _], h => exact absurd rfl h
  | _ :: _ :: _ :: _, _ => rfl

theorem decompress40_of_fscanf_nil (chroma_of_index : Nat → ℚ)
    (Pnm_ppmwrite : Nat → Nat → Nat → Writes → List Nat) (input : List Nat) (w h : Nat)
    (hf : fscanf "COMP40 Compressed image format 2\n%u %u" input = .ok ([w, h], [])) :
    decompress40 chroma_of_index Pnm_ppmwrite input
      = { stdout := [], outcome := .error .assertion } := by
  unfold decompress40
  rw [hf]

theorem decompress40_of_fscanf_cons (chroma_of_index : Nat → ℚ)
    (Pnm_ppmwrite : Nat → Nat → Nat → Writes → List Nat) (input body : List Nat) (w h c : Nat)
    (hf : fscanf "COMP40 Compressed image format 2\n%u %u" input = .ok ([w, h], c :: body)) :
    decompress40 chroma_of_index Pnm_ppmwrite input
      = if c = 10 then
          match decompress40_blocks chroma_of_index w h body with
          | .error f => { stdout := [], outcome := .error f }
          | .ok pixels => { stdout := Pnm_ppmwrite w h 255 pixels, outcome := .ok () }
        else { stdout := [], outcome := .error .assertion } := by
  unfold decompress40
  rw [hf]

/-! ## The pixels a traversal touches -/

theorem getCompressed_congr (pixels1 pixels2 : Int → Int → Pnm_rgb) (col row : Int)
    (denominator : Nat)
    (h : ∀ p ∈ blockPositions col row, pixels1 p.1 p.2 = pixels2 p.1 p.2) :
    getCompressed pixels1 col row denominator = getCompressed pixels2 col row denominator := by
  have h1 := h (col, row) (by simp [blockPositions])
  have h2 := h (col + 1, row) (by simp [blockPositions])
  have h3 := h (col, row + 1) (by simp [blockPositions])
  have h4 := h (col + 1, row + 1) (by simp [blockPositions])
  simp only [] at h1 h2 h3 h4
  rw [getCompressed_eq, getCompressed_eq, h1, h2, h3, h4]

theorem setPixels_positions (array : Writes) (col row : Int) (denominator : Nat)
    (compressed : Compressed) :
    (setPixels array col row denominator compressed).map Prod.fst
      = array.map Prod.fst ++ blockPositions col row := by
  rw [setPixels_eq]
  simp [blockPositions]

theorem decode_2by2_positions (chroma_of_index : Nat → ℚ) (denominator : Nat) (col row : Int)
    (st st1 : DecodeState)
    (h : decode_2by2 chroma_of_index denominator col row st = .ok st1) :
    st1.pixels.map Prod.fst = st.pixels.map Prod.fst ++ blockPositions col row := by
  unfold decode_2by2 at h
  simp only [bind, Except.bind, pure, Except.pure] at h
  split at h
  · exact absurd h (by simp)
  · split at h
    · exact absurd h (by simp)
    · injection h with h
      rw [← h]
      exact setPixels_positions _ _ _ _ _

theorem decode_foldlM_positions (chroma_of_index : Nat → ℚ) (denominator : Nat) :
    ∀ (l : List (Int × Int)) (st st1 : DecodeState),
      l.foldlM (fun s p => decode_2by2 chroma_of_index denominator p.1 p.2 s) st = .ok st1 →
      st1.pixels.map Prod.fst
        = st.pixels.map Prod.fst ++ l.flatMap fun origin => blockPositions origin.1 origin.2 := by
  intro l
  induction l with
  | nil =>
    intro st st1 h
    simp only [List.foldlM_nil, pure, Except.pure] at h
    injection h with h
    simp [h]
  | cons p l ih =>
    intro st st1 h
    rw [List.foldlM_cons] at h
    simp only [bind, Except.bind] at h
    split at h
    · exact absurd h (by simp)
    · rename_i st2 h2
      rw [ih st2 st1 h, decode_2by2_positions _ _ _ _ _ _ h2, List.flatMap_cons,
        List.append_assoc]

theorem decompress40_blocks_positions (chroma_of_index : Nat → ℚ) (w h : Nat)
    (input : List Nat) (pixels : Writes)
    (hok : decompress40_blocks chroma_of_index w h input = .ok pixels) :
    pixels.map Prod.fst = visitedPositions w h := by
  unfold decompress40_blocks at hok
  rw [map_2by2_eq] at hok
  simp only [bind, Except.bind, pure, Except.pure] at hok
  split at hok
  · exact absurd hok (by simp)
  · rename_i st1 h1
    injection hok with hok
    rw [← hok, decode_foldlM_positions _ _ _ _ _ h1]
    rfl

theorem mem_blockPositions (col row c r : Int) :
    (c, r) ∈ blockPositions col row ↔ (c = col ∨ c = col + 1) ∧ (r = row ∨ r = row + 1) := by
  simp only [blockPositions, List.mem_cons, Prod.mk.injEq, List.mem_singleton, List.mem_nil_iff,
    or_false]
  constructor
  · rintro (⟨h1, h2⟩ | ⟨h1, h2⟩ | ⟨h1, h2⟩ | ⟨h1, h2⟩) <;> exact ⟨by omega, by omega⟩
  · rintro ⟨h1 | h1, h2 | h2⟩
    · exact Or.inl ⟨h1, h2⟩
    · exact Or.inr (Or.inr (Or.inl ⟨h1, h2⟩))
    · exact Or.inr (Or.inl ⟨h1, h2⟩)
    · exact Or.inr (Or.inr (Or.inr ⟨h1, h2⟩))

theorem mem_visitedPositions (w h : Nat) (c r : Int) :
    (c, r) ∈ visitedPositions w h ↔
      (0 ≤ c ∧ 0 ≤ r ∧ c < 2 * ((w / 2 : Nat) : Int) ∧ r < 2 * ((h / 2 : Nat) : Int)) := by
  unfold visitedPositions
  rw [List.mem_flatMap]
  constructor
  · rintro ⟨⟨oc, or⟩, ho, hp⟩
    rw [mem_blockOrigins] at ho
    rw [mem_blockPositions] at hp
    simp only [] at hp
    omega
  · intro hcr
    refine ⟨(2 * (c / 2), 2 * (r / 2)), ?_, ?_⟩
    · rw [mem_blockOrigins]
      omega
    · rw [mem_blockPositions]
      omega

theorem blockPositions_nodup (col row : Int) : (blockPositions col row).Nodup := by
  simp [blockPositions]

theorem visitedPositions_nodup (w h : Nat) : (visitedPositions w h).Nodup := by
  unfold visitedPositions
  rw [List.nodup_flatMap]
  refine ⟨fun o _ => blockPositions_nodup o.1 o.2, ?_⟩
  refine List.Pairwise.imp_of_mem ?_ (blockOrigins_nodup w h)
  intro a b ha hb hne
  rw [Function.onFun, List.disjoint_left]
  rintro ⟨c, r⟩ hca hcb
  rw [mem_blockPositions] at hca hcb
  obtain ⟨a1, a2⟩ := a
  obtain ⟨b1, b2⟩ := b
  rw [mem_blockOrigins] at ha hb
  simp only [] at hca hcb
  apply hne
  rw [Prod.mk.injEq]
  omega

theorem foldlM_record_positions : ∀ (l : List (Int × Int)) (s : List (Int × Int)),
    l.foldlM (fun (s : List (Int × Int)) (p : Int × Int) =>
        (Except.ok (s ++ blockPositions p.1 p.2) : Except Fault (List (Int × Int)))) s
      = .ok (s ++ l.flatMap fun origin => blockPositions origin.1 origin.2) := by
  intro l
  induction l with
  | nil => intro s; simp [pure, Except.pure]
  | cons p l ih =>
    intro s
    rw [List.foldlM_cons]
    simp only [bind, Except.bind]
    rw [ih]
    simp

theorem blockPositions_in_bounds (w h : Nat) (origin : Int × Int)
    (ho : origin ∈ blockOrigins w h) (p : Int × Int)
    (hp : p ∈ blockPositions origin.1 origin.2) :
    0 ≤ p.1 ∧ p.1 < w ∧ 0 ≤ p.2 ∧ p.2 < h := by
  obtain ⟨oc, or⟩ := origin
  obtain ⟨c, r⟩ := p
  rw [mem_blockOrigins] at ho
  rw [mem_blockPositions] at hp
  simp only [] at hp ⊢
  omega

theorem count_eq_one_of_nodup {α : Type} [BEq α] [LawfulBEq α] :
    ∀ (l : List α) (a : α), l.Nodup → a ∈ l → l.count a = 1 := by
  intro l
  induction l with
  | nil => intro a _ hm; exact absurd hm (List.not_mem_nil a)
  | cons b l ih =>
    intro a hn hm
    rw [List.nodup_cons] at hn
    rw [List.count_cons]
    rcases List.mem_cons.1 hm with hab | hal
    · subst hab
      rw [List.count_eq_zero_of_not_mem hn.1]
      simp
    · have hne : ¬ b = a := by
        intro hba
        subst hba
        exact hn.1 hal
      rw [ih a hn.2 hal]
      simp [hne]

/-! ## Quantization error -/

theorem abs_c_round_sub_le (y : ℚ) : |((c_round y : Int) : ℚ) - y| ≤ 1 / 2 := by
  unfold c_round
  rw [abs_le]
  split_ifs with h
  · have h1 := Int.floor_le (y + 1 / 2)
    have h2 := Int.lt_floor_add_one (y + 1 / 2)
    constructor <;> linarith
  · have h1 := Int.le_ceil (y - 1 / 2)
    have h2 := Int.ceil_lt_add_one (y - 1 / 2)
    constructor <;> linarith

theorem scale_DCT_of_mem (x : ℚ) (h1 : -0.3 ≤ x) (h2 : x ≤ 0.3) :
    scale_DCT x = c_round (x * 103.33) := by
  unfold scale_DCT
  split_ifs with h3 h4
  · exact absurd h3 (not_lt.2 h2)
  · exact absurd h4 (not_lt.2 h1)
  · rfl

theorem scale_DCT_above (x : ℚ) (h : 0.3 < x) : scale_DCT x = 31 := by
  unfold scale_DCT
  rw [if_pos h]
  exact c_round_eq 31 _ (by norm_num) (by norm_num)

theorem scale_DCT_below (x : ℚ) (h : x < -0.3) : scale_DCT x = -31 := by
  have h3 : ¬ x > 0.3 := by
    intro h3
    norm_num at h h3
    linarith
  unfold scale_DCT
  rw [if_neg h3, if_pos h]
  exact c_round_eq (-31) _ (by norm_num) (by norm_num)

/-! ## The compiled shifts -/

theorem shr64_machine_eq (x n : Nat) (h : n < 64) : shr64 x n = .ok (shr64_machine x n) := by
  unfold shr64 shr64_machine
  rw [if_pos h, Nat.mod_eq_of_lt h]

theorem shl64_machine_eq (x n : Nat) (h : n < 64) : shl64 x n = .ok (shl64_machine x n) := by
  unfold shl64 shl64_machine
  rw [if_pos h, Nat.mod_eq_of_lt h]

theorem getu_machine_eq (word width lsb : Nat)
    (h : Bitpack_getu word width lsb ≠ .error .undefinedShift) :
    Bitpack_getu_machine word width lsb = Bitpack_getu word width lsb := by
  unfold Bitpack_getu Bitpack_getu_machine at *
  by_cases h1 : width ≤ WORDSIZE
  · by_cases h2 : (width + lsb) % 2 ^ 32 ≤ WORDSIZE
    · simp only [h1, h2, not_true_eq_false, if_false] at h ⊢
      by_cases ha : WORDSIZE - width < 64
      · by_cases hb : lsb < 64
        · simp only [bind, Except.bind, shr64_machine_eq _ _ ha, shl64_machine_eq _ _ hb]
          rw [shr64_machine_eq _ _ hb]
        · exfalso
          apply h
          simp only [bind, Except.bind, shr64_machine_eq _ _ ha, shl64, if_neg hb]
      · exfalso
        apply h
        simp only [bind, Except.bind, shr64, if_neg ha]
    · simp only [h1, h2, not_true_eq_false, not_false_eq_true, if_false, if_true]
  · simp only [h1, not_false_eq_true, if_true]

theorem newu_machine_eq (word width lsb value : Nat)
    (h : Bitpack_newu word width lsb value ≠ .error .undefinedShift) :
    Bitpack_newu_machine word width lsb value = Bitpack_newu word width lsb value := by
  unfold Bitpack_newu Bitpack_newu_machine at *
  by_cases h1 : width ≤ WORDSIZE
  · by_cases h2 : (width + lsb) % 2 ^ 32 ≤ WORDSIZE
    · by_cases h3 : Bitpack_fitsu value width = true
      · simp only [h1, h2, h3, not_true_eq_false, if_false] at h ⊢
        by_cases ha : WORDSIZE - width < 64
        · by_cases hb : lsb < 64
          · simp only [bind, Except.bind, shr64_machine_eq _ _ ha, shl64_machine_eq _ _ hb,
              pure, Except.pure]
          · exfalso
            apply h
            simp only [bind, Except.bind, shr64_machine_eq _ _ ha, shl64, if_neg hb]
        · exfalso
          apply h
          simp only [bind, Except.bind, shr64, if_neg ha]
      · simp only [h1, h2, not_true_eq_false, if_false, if_pos h3]
    · simp only [h1, h2, not_true_eq_false, not_false_eq_true, if_false, if_true]
  · simp only [h1, not_false_eq_true, if_true]

theorem land_not64_land (word mask : Nat) (hm : mask < 2 ^ 64) :
    (word &&& not64 mask) &&& mask = 0 := by
  apply Nat.eq_of_testBit_eq
  intro j
  rw [Nat.testBit_land, Nat.testBit_land, testBit_not64 _ _ hm, Nat.zero_testBit]
  cases mask.testBit j <;> simp

theorem getu_newu_machine_width_zero (word lsb : Nat) (hword : word < 2 ^ 64)
    (hl : lsb ≤ 64) :
    ∃ r, Bitpack_newu_machine word 0 lsb 0 = .ok r ∧ r < 2 ^ 64 ∧
      Bitpack_getu_machine r 0 lsb = .ok 0 := by
  have hm : (0 + lsb) % 2 ^ 32 = lsb := by
    rw [Nat.zero_add]
    exact Nat.mod_eq_of_lt (by omega)
  have hmask : shl64_machine (shr64_machine (2 ^ 64 - 1) (WORDSIZE - 0)) lsb < 2 ^ 64 :=
    Nat.mod_lt _ (by positivity)
  have hf : Bitpack_fitsu 0 0 = true := by decide
  have hz : shl64_machine 0 lsb = 0 := by
    unfold shl64_machine
    rw [Nat.zero_shiftLeft, Nat.zero_mod]
  have hw0 : (0 : Nat) ≤ WORDSIZE := Nat.zero_le _
  have hlw : lsb ≤ WORDSIZE := hl
  refine ⟨word &&& not64 (shl64_machine (shr64_machine (2 ^ 64 - 1) (WORDSIZE - 0)) lsb),
    ?_, ?_, ?_⟩
  · unfold Bitpack_newu_machine
    simp only [hm, hw0, hlw, hf, hz, not_true_eq_false, if_false, Nat.or_zero]
  · exact lt_of_le_of_lt Nat.and_le_left hword
  · unfold Bitpack_getu_machine
    simp only [hm, hw0, hlw, not_true_eq_false, if_false, land_not64_land _ _ hmask]
    unfold shr64_machine
    rw [Nat.zero_shiftRight]

/-- The compiled code at width 0 on small words: the shift by 64 leaves the mask
all ones, so insertion clears the bits at `lsb` and above, and extraction
returns the bits at `lsb` and above. -/
theorem machine_width_zero_values :
    Bitpack_newu_machine 0 0 0 0 = .ok 0 ∧ Bitpack_getu_machine 0 0 0 = .ok 0 ∧
      Bitpack_newu_machine 255 0 4 0 = .ok 15 ∧ Bitpack_getu_machine 15 0 4 = .ok 0 ∧
      Bitpack_getu_machine 1 0 0 = .ok 1 := by
  decide

/-- In ISO C the insertion of a field of width 0 evaluates `~0 >> 64`, for which
the standard defines no result. -/
theorem newu_width_zero_undefined :
    Bitpack_fitsu 0 0 = true ∧ Bitpack_newu 0 0 0 0 = .error .undefinedShift := by
  decide

/-! ## The claims of the specification -/

/-- C1 (unsigned round trip): for every 64-bit word, every width from 0 to 64,
every `lsb` with `width + lsb ≤ 64` and every 64-bit value that fits in `width`
unsigned bits, the compiled `Bitpack_newu` returns a word and the compiled
`Bitpack_getu` of that word returns the value, the widths 0 and 64 included; for
the widths 1 to 64 every shift count is below 64, `Bitpack_newu` and
`Bitpack_getu` as ISO C defines them return the same word and the value. -/
theorem getu_newu_round_trip (word width lsb value : Nat) (hword : word < 2 ^ 64)
    (hvalue : value < 2 ^ 64) (hl : width + lsb ≤ 64)
    (hfit : Bitpack_fitsu value width = true) :
    (∃ r, Bitpack_newu_machine word width lsb value = .ok r ∧ r < 2 ^ 64 ∧
        Bitpack_getu_machine r width lsb = .ok value) ∧
      (1 ≤ width →
        ∃ r, Bitpack_newu word width lsb value = .ok r ∧
          Bitpack_getu r width lsb = .ok value ∧
          Bitpack_newu_machine word width lsb value = .ok r) := by
  have hstrict : 1 ≤ width →
      ∃ r, Bitpack_newu word width lsb value = .ok r ∧ r < 2 ^ 64 ∧
        Bitpack_getu r width lsb = .ok value ∧
        Bitpack_newu_machine word width lsb value = .ok r ∧
        Bitpack_getu_machine r width lsb = .ok value := by
    intro h1
    have hv : value < 2 ^ width := by
      rcases (fitsu_iff value width).1 hfit with h64 | hv
      · have hw : width = 64 := by omega
        rw [hw]
        exact hvalue
      · exact hv
    obtain ⟨r, hr, hlt, -⟩ := newu_bits word width lsb value h1 hl hword hv
    obtain ⟨r2, hr2, hg⟩ := getu_newu word width lsb value h1 hl hword hv
    have hrr : r2 = r := by
      rw [hr] at hr2
      injection hr2 with hr2
      exact hr2.symm
    rw [hrr] at hg
    refine ⟨r, hr, hlt, hg, ?_, ?_⟩
    · rw [newu_machine_eq _ _ _ _ (by rw [hr]; simp), hr]
    · rw [getu_machine_eq _ _ _ (by rw [hg]; simp), hg]
  constructor
  · by_cases h1 : 1 ≤ width
    · obtain ⟨r, -, hlt, -, hm, hgm⟩ := hstrict h1
      exact ⟨r, hm, hlt, hgm⟩
    · have hw : width = 0 := by omega
      subst hw
      have hv : value = 0 := by
        rcases (fitsu_iff value 0).1 hfit with h64 | hv
        · omega
        · omega
      subst hv
      exact getu_newu_machine_width_zero word lsb hword (by omega)
  · intro h1
    obtain ⟨r, hr, -, hg, hm, -⟩ := hstrict h1
    exact ⟨r, hr, hg, hm⟩

theorem getu_newu_round_trip_witness :
    (∃ r, Bitpack_newu_machine 255 0 4 0 = .ok r ∧ r < 2 ^ 64 ∧
        Bitpack_getu_machine r 0 4 = .ok 0) ∧
      (1 ≤ 0 →
        ∃ r, Bitpack_newu 255 0 4 0 = .ok r ∧
          Bitpack_getu r 0 4 = .ok 0 ∧
          Bitpack_newu_machine 255 0 4 0 = .ok r) :=
  getu_newu_round_trip 255 0 4 0 (by decide) (by decide) (by decide) (by decide)

/-- C2 (signed round trip, large widths): the value `2 ^ 54 - 1` fits in 55
signed bits and `Bitpack_news` stores it unchanged, but `Bitpack_gets` reads the
field back as `-(2 ^ 54) - 1`: the comparison with `pow(2, 54)` is made after
rounding the field to a double, which rounds `2 ^ 54 - 1` up to `2 ^ 54`. -/
theorem news_gets_width_55_mismatch :
    Bitpack_fitss (2 ^ 54 - 1) 55 = true ∧
      Bitpack_news 0 55 0 (2 ^ 54 - 1) = .ok (2 ^ 54 - 1) ∧
      Bitpack_gets (2 ^ 54 - 1) 55 0 = .ok (-(2 ^ 54) - 1) := by
  decide

/-- C3 (overflow detection): when `width + lsb ≤ 64`, `Bitpack_newu` raises
`Bitpack_Overflow` exactly when `Bitpack_fitsu value width` is false and
`Bitpack_news` raises it exactly when `Bitpack_fitss value width` is false; in
particular inserting 16 into 4 unsigned bits and 8 into 4 signed bits raises it
for every word. -/
theorem overflow_iff_not_fits (word width lsb value : Nat) (svalue : Int)
    (h : width + lsb ≤ 64) :
    (Bitpack_newu word width lsb value = .error .overflow
        ↔ Bitpack_fitsu value width = false) ∧
      (Bitpack_news word width lsb svalue = .error .overflow
        ↔ Bitpack_fitss svalue width = false) ∧
      Bitpack_newu word 4 0 16 = .error .overflow ∧
      Bitpack_news word 4 0 8 = .error .overflow := by
  have hm : (width + lsb) % 4294967296 = width + lsb := by omega
  have hl : lsb % 4294967296 = lsb := by omega
  have hc : width ≤ 64 := by omega
  refine ⟨?_, ?_, ?_, ?_⟩
  · by_cases hf : Bitpack_fitsu value width = true
    · by_cases h0 : width = 0
      · subst h0
        have hl2 : ¬ 64 < lsb := by omega
        simp [Bitpack_newu, WORDSIZE, hl, hl2, hf, shr64, bind, Except.bind]
      · have ha : 64 - width < 64 := by omega
        have hb : lsb < 64 := by omega
        simp [Bitpack_newu, WORDSIZE, hm, h, hc, hf, shr64, shl64, ha, hb, bind, Except.bind,
          pure, Except.pure]
    · simp [Bitpack_newu, WORDSIZE, hm, h, hc, hf]
  · by_cases hf : Bitpack_fitss svalue width = true
    · by_cases h0 : width = 0
      · subst h0
        have hl2 : ¬ 64 < lsb := by omega
        simp [Bitpack_news, WORDSIZE, hl, hl2, hf, shr64, bind, Except.bind]
      · have ha : 64 - width < 64 := by omega
        have hb : lsb < 64 := by omega
        simp [Bitpack_news, WORDSIZE, hm, h, hc, hf, shr64, shl64, shlS64, ha, hb, bind,
          Except.bind, pure, Except.pure]
    · simp [Bitpack_news, WORDSIZE, hm, h, hc, hf]
  · have hf : Bitpack_fitsu 16 4 = false := by decide
    simp [Bitpack_newu, WORDSIZE, hf]
  · have hf : Bitpack_fitss 8 4 = false := by decide
    simp [Bitpack_news, WORDSIZE, hf]

/-- C3, at `word = 0`, `width = 4`, `lsb = 0`, `value = 16`, signed value 8. -/
theorem overflow_iff_not_fits_witness :
    (Bitpack_newu 0 4 0 16 = .error .overflow ↔ Bitpack_fitsu 16 4 = false) ∧
      (Bitpack_news 0 4 0 8 = .error .overflow ↔ Bitpack_fitss 8 4 = false) ∧
      Bitpack_newu 0 4 0 16 = .error .overflow ∧
      Bitpack_news 0 4 0 8 = .error .overflow :=
  overflow_iff_not_fits 0 4 0 16 8 (by decide)

/-- C4 (frame property, boundary `width = 0`): the claim has `Bitpack_newu`
return the word unchanged when `width = 0`; the code evaluates `~0 >> 64`
there, a shift by the full width of the operand, so the call on the word 255
has no defined result.  (For widths 1 to 64 the frame property is
`newu_bits`.) -/
theorem newu_frame_width_zero_undefined :
    Bitpack_fitsu 0 0 = true ∧ Bitpack_newu 255 0 4 0 = .error .undefinedShift := by
  decide

/-- C5 (signed insertion writes only the field): for a width from 1 to 64 with
`width + lsb ≤ 64` and a value that fits in `width` signed bits,
`Bitpack_news` returns a word, the same word that `Bitpack_newu` returns for
`value mod 2 ^ width`, and every bit of it at a position `lsb + width` or above
is the bit of the original word. -/
theorem news_writes_field_only (word width lsb : Nat) (value : Int) (h1 : 1 ≤ width)
    (h2 : width + lsb ≤ 64) (hword : word < 2 ^ 64)
    (hfit : Bitpack_fitss value width = true) :
    ∃ r, Bitpack_news word width lsb value = .ok r ∧
      Bitpack_newu word width lsb (value % 2 ^ width).toNat = .ok r ∧
      ∀ j, lsb + width ≤ j → r.testBit j = word.testBit j := by
  obtain ⟨r, hr, -, hbits⟩ :=
    newu_bits word width lsb (value % 2 ^ width).toNat h1 h2 hword (emod_toNat_lt value width)
  refine ⟨r, ?_, hr, ?_⟩
  · rw [news_eq_newu word width lsb value h1 h2 hfit, hr]
  · intro j hj
    rw [hbits j]
    unfold newuBit
    rw [if_neg (by omega)]

/-- C5, at the all-ones word with the value -3 in a 4-bit field at bit 4. -/
theorem news_writes_field_only_witness :
    ∃ r, Bitpack_news (2 ^ 64 - 1) 4 4 (-3) = .ok r ∧
      Bitpack_newu (2 ^ 64 - 1) 4 4 ((-3 : Int) % 2 ^ 4).toNat = .ok r ∧
      ∀ j, 4 + 4 ≤ j → r.testBit j = (2 ^ 64 - 1).testBit j :=
  news_writes_field_only (2 ^ 64 - 1) 4 4 (-3) (by decide) (by decide) (by decide) (by decide)

/-- C6 (codeword bit layout): for `a` in [0,63], `b`, `c`, `d` in [-32,31] and
chroma indices in [0,15], `make_codeword` returns
`a*2^26 + (b mod 64)*2^20 + (c mod 64)*2^14 + (d mod 64)*2^8 + pb*2^4 + pr`;
the result is below `2^32` and its bits 31..26 are `a`. -/
theorem make_codeword_layout (pb pr a : Nat) (b c d : Int) (ha : a ≤ 63)
    (hb : -32 ≤ b ∧ b ≤ 31) (hc : -32 ≤ c ∧ c ≤ 31) (hd : -32 ≤ d ∧ d ≤ 31)
    (hpb : pb ≤ 15) (hpr : pr ≤ 15) :
    ∃ cw, make_codeword pb pr a b c d = .ok cw ∧
      cw = a * 2 ^ 26 + (b % 64).toNat * 2 ^ 20 + (c % 64).toNat * 2 ^ 14
          + (d % 64).toNat * 2 ^ 8 + pb * 2 ^ 4 + pr ∧
      cw < 2 ^ 32 ∧ cw / 2 ^ 26 = a := by
  refine ⟨_, make_codeword_eq pb pr a b c d ha hb hc hd hpb hpr, rfl, ?_, ?_⟩
  · norm_num
    omega
  · norm_num
    omega

/-- C6, at `a = 63`, `b = -32`, `c = 0`, `d = 31`, `pb = 15`, `pr = 0`. -/
theorem make_codeword_layout_witness :
    ∃ cw, make_codeword 15 0 63 (-32) 0 31 = .ok cw ∧
      cw = 63 * 2 ^ 26 + ((-32 : Int) % 64).toNat * 2 ^ 20 + ((0 : Int) % 64).toNat * 2 ^ 14
          + ((31 : Int) % 64).toNat * 2 ^ 8 + 15 * 2 ^ 4 + 0 ∧
      cw < 2 ^ 32 ∧ cw / 2 ^ 26 = 63 :=
  make_codeword_layout 15 0 63 (-32) 0 31 (by decide) (by decide) (by decide) (by decide)
    (by decide) (by decide)

/-- C7 (pack/unpack fidelity): for `a` in [0,63], `b`, `c`, `d` in [-32,31] and
chroma indices in [0,15], `make_codeword` returns a codeword from which the six
extractions of `decode_codeword` return exactly `(a, b, c, d, pb, pr)`. -/
theorem make_codeword_decode (pb pr a : Nat) (b c d : Int) (ha : a ≤ 63)
    (hb : -32 ≤ b ∧ b ≤ 31) (hc : -32 ≤ c ∧ c ≤ 31) (hd : -32 ≤ d ∧ d ≤ 31)
    (hpb : pb ≤ 15) (hpr : pr ≤ 15) :
    ∃ cw, make_codeword pb pr a b c d = .ok cw ∧
      decode_codeword_fields cw = .ok ⟨a, b, c, d, pb, pr⟩ :=
  ⟨_, make_codeword_eq pb pr a b c d ha hb hc hd hpb hpr,
    decode_make_codeword pb pr a b c d ha hb hc hd hpb hpr⟩

/-- C7, at the specification's example `a = 63`, `b = -32`, `c = 0`, `d = 31`,
`pb = 15`, `pr = 0`. -/
theorem make_codeword_decode_witness :
    ∃ cw, make_codeword 15 0 63 (-32) 0 31 = .ok cw ∧
      decode_codeword_fields cw = .ok ⟨63, -32, 0, 31, 15, 0⟩ :=
  make_codeword_decode 15 0 63 (-32) 0 31 (by decide) (by decide) (by decide) (by decide)
    (by decide) (by decide)

/-- C8 (`Bitpack_fitsu`): the test is true exactly when `width ≥ 64` or
`n < 2 ^ width`; with `width = 0` only `n = 0` fits. -/
theorem fitsu_spec (n width : Nat) :
    (Bitpack_fitsu n width = true ↔ 64 ≤ width ∨ n < 2 ^ width) ∧
      (Bitpack_fitsu n 0 = true ↔ n = 0) := by
  refine ⟨fitsu_iff n width, ?_⟩
  rw [fitsu_iff]
  norm_num

/-- C9 (`Bitpack_fitss`): the test is true when `width ≥ 64`; when `width = 0`
it is true exactly for `n = -1`; for every other width it is true exactly when
`-2 ^ (width - 1) ≤ n < 2 ^ (width - 1)`. -/
theorem fitss_spec (n : Int) (width : Nat) :
    Bitpack_fitss n width = true ↔
      (64 ≤ width ∨ (width = 0 ∧ n = -1) ∨
        (1 ≤ width ∧ -2 ^ (width - 1) ≤ n ∧ n < 2 ^ (width - 1))) :=
  fitss_iff n width

/-- C10 (`Bitpack_getu`, boundary `width = 0`): the claim has `Bitpack_getu`
return 0 when `width = 0`; the code evaluates `~0 >> 64` there, a shift by the
full width of the operand, so the call on the word 1 has no defined result.
(For widths 1 to 64 the claimed formula is `getu_eq`.) -/
theorem getu_width_zero_undefined :
    Bitpack_getu 1 0 0 = .error .undefinedShift := by
  decide

/-- C11 (`Bitpack_gets` sign extension, widths above 54): in the word
`2 ^ 63 - 2` the 63-bit field at bit 1 is `2 ^ 62 - 1`, whose bit 62 is 0, so
the claim has `Bitpack_gets` return `2 ^ 62 - 1`; the code returns
`-(2 ^ 62) - 1`, because the comparison with `pow(2, 62)` is made after rounding
the field to a double, which rounds `2 ^ 62 - 1` up to `2 ^ 62`. -/
theorem gets_width_63_sign_mismatch :
    Bitpack_getu (2 ^ 63 - 2) 63 1 = .ok (2 ^ 62 - 1) ∧
      (2 ^ 62 - 1).testBit 62 = false ∧
      Bitpack_gets (2 ^ 63 - 2) 63 1 = .ok (-(2 ^ 62) - 1) := by
  decide

/-- C12 (fatal preconditions, wrapped sum): with `width = 1` and
`lsb = 2 ^ 32 - 1` the true sum exceeds 64, but the sum the assertion tests is
computed on `unsigned` and wraps to 0, so no call stops with the assertion
failure: the extractions go on to shift by `lsb`, and the insertions of a
value that does not fit raise `Bitpack_Overflow`. -/
theorem wrapped_sum_passes_assertion :
    Bitpack_getu 0 1 4294967295 = .error .undefinedShift ∧
      Bitpack_gets 0 1 4294967295 = .error .undefinedShift ∧
      Bitpack_newu 0 1 4294967295 1 = .error .undefinedShift ∧
      Bitpack_newu 0 1 4294967295 2 = .error .overflow ∧
      Bitpack_news 0 1 4294967295 5 = .error .overflow := by
  decide

/-- C13 (frequency transform inverse): over exact arithmetic,
`dct_to_lumas (lumas_to_dct v) = v` for every 4-vector `v`, that is, the product
`DCT_TO_LUMAS * LUMAS_TO_DCT` is the identity. -/
theorem dct_to_lumas_lumas_to_dct (y1 y2 y3 y4 : ℚ) :
    dct_to_lumas (lumas_to_dct [y1, y2, y3, y4]) = [y1, y2, y3, y4] := by
  rw [lumas_to_dct_eq, dct_to_lumas_eq]
  simp only [List.cons.injEq, and_true]
  refine ⟨?_, ?_, ?_, ?_⟩ <;> ring

/-- C14, as stated, fails: with the entries read as exact decimals, converting
the vector `(0, 1, 0)` to colour space and back does not return it, so the
product `COLORSPACE_TO_RGB * RGB_TO_COLORSPACE` is not the identity. -/
theorem colour_matrices_not_exact_inverses :
    cspace_to_rgb (rgb_to_cspace [0, 1, 0]) ≠ [0, 1, 0] := by
  rw [cspace_to_rgb_rgb_to_cspace]
  norm_num

/-- C14, amended: with the entries read as exact decimals, the product
`COLORSPACE_TO_RGB * RGB_TO_COLORSPACE` is the identity plus the error matrix
with rows `(0, -9, 9) / 15625000`, `(258, 81, -339) / 1953125000` and
`(-3, 3, 0) / 15625000`, so `cspace_to_rgb (rgb_to_cspace v)` is `v` plus that
matrix applied to `v`. -/
theorem colour_matrices_near_inverses (r g b : ℚ) :
    cspace_to_rgb (rgb_to_cspace [r, g, b])
      = [r + (0 * r + -9 * g + 9 * b) / 15625000,
          g + (258 * r + 81 * g + -339 * b) / 1953125000,
          b + (-3 * r + 3 * g + 0 * b) / 15625000] := by
  rw [cspace_to_rgb_rgb_to_cspace]
  simp only [List.cons.injEq, and_true]
  refine ⟨?_, ?_, ?_⟩ <;> ring

/-- C15 (pixel round trip): for a denominator `d` from 1 to 65535 and a pixel
whose samples lie in `[0, d]`, `pixel_to_rgb`, `rgb_to_cspace`, `cspace_to_rgb`
and `rgb_to_pixel` with the same `d`, over exact arithmetic and with rounding to
nearest, return the original pixel. -/
theorem pixel_round_trip (d : Nat) (r g b : Int) (hd1 : 1 ≤ d) (hd2 : d ≤ 65535)
    (hr : 0 ≤ r ∧ r ≤ d) (hg : 0 ≤ g ∧ g ≤ d) (hb : 0 ≤ b ∧ b ≤ d) :
    rgb_to_pixel (cspace_to_rgb (rgb_to_cspace (pixel_to_rgb ⟨r, g, b⟩ d))) d = ⟨r, g, b⟩ := by
  have hdq : (0 : ℚ) < d := by exact_mod_cast hd1
  have hdne : (d : ℚ) ≠ 0 := ne_of_gt hdq
  have hd2q : (d : ℚ) ≤ 65535 := by exact_mod_cast hd2
  have hr0 : (0 : ℚ) ≤ r := by exact_mod_cast hr.1
  have hr1 : (r : ℚ) ≤ d := by exact_mod_cast hr.2
  have hg0 : (0 : ℚ) ≤ g := by exact_mod_cast hg.1
  have hg1 : (g : ℚ) ≤ d := by exact_mod_cast hg.2
  have hb0 : (0 : ℚ) ≤ b := by exact_mod_cast hb.1
  have hb1 : (b : ℚ) ≤ d := by exact_mod_cast hb.2
  unfold pixel_to_rgb
  rw [cspace_to_rgb_rgb_to_cspace]
  unfold rgb_to_pixel
  simp only [List.getD_cons_zero, List.getD_cons_succ]
  have e1 : ((r : ℚ) / d + (9 * ((b : ℚ) / d) - 9 * ((g : ℚ) / d)) / 15625000) * d
      = r + (9 * b - 9 * g) / 15625000 := by
    field_simp
    ring
  have e2 : ((g : ℚ) / d + (258 * ((r : ℚ) / d) + 81 * ((g : ℚ) / d) - 339 * ((b : ℚ) / d))
      / 1953125000) * d = g + (258 * r + 81 * g - 339 * b) / 1953125000 := by
    field_simp
    ring
  have e3 : ((b : ℚ) / d + (3 * ((g : ℚ) / d) - 3 * ((r : ℚ) / d)) / 15625000) * d
      = b + (3 * g - 3 * r) / 15625000 := by
    field_simp
    ring
  rw [e1, e2, e3, c_round_eq r _ (by linarith) (by linarith),
    c_round_eq g _ (by linarith) (by linarith), c_round_eq b _ (by linarith) (by linarith)]

/-- C15, at the pixel `(65535, 0, 65535)` with denominator 65535. -/
theorem pixel_round_trip_witness :
    rgb_to_pixel (cspace_to_rgb (rgb_to_cspace (pixel_to_rgb ⟨65535, 0, 65535⟩ 65535))) 65535
      = ⟨65535, 0, 65535⟩ :=
  pixel_round_trip 65535 65535 0 65535 (by decide) (by decide) (by decide) (by decide)
    (by decide)

/-- C16 (AC quantization range): for every coefficient `x`, `scale_DCT x` is an
integer in `[-31, 31]`, it fits in 6 signed bits, and inserting it as a signed
6-bit field at an offset of at most 58 does not raise `Bitpack_Overflow`. -/
theorem scale_DCT_fits (x : ℚ) :
    (-31 ≤ scale_DCT x ∧ scale_DCT x ≤ 31) ∧
      Bitpack_fitss (scale_DCT x) 6 = true ∧
      ∀ word lsb, lsb ≤ 58 → Bitpack_news word 6 lsb (scale_DCT x) ≠ .error .overflow := by
  have hrange := scale_DCT_range x
  have hfit : Bitpack_fitss (scale_DCT x) 6 = true :=
    fitss_six _ ⟨by omega, by omega⟩
  refine ⟨hrange, hfit, ?_⟩
  intro word lsb hl
  have hm : (6 + lsb) % 4294967296 = 6 + lsb := by omega
  have hb : lsb < 64 := by omega
  have h2 : 6 + lsb ≤ 64 := by omega
  simp [Bitpack_news, WORDSIZE, hm, h2, hfit, shr64, shl64, shlS64, hb, bind, Except.bind,
    pure, Except.pure]

/-- C17 (trimming and codeword count): when `compress40` succeeds on an image
of width `w` and height `h`, standard output holds the header
`COMP40 Compressed image format 2`, newline, `w - w mod 2`, space,
`h - h mod 2`, newline, followed by exactly `4 * (w / 2) * (h / 2)` body bytes;
for a 5 by 3 image the header dimensions are `4 2` and the body is 8 bytes, two
codewords. -/
theorem compress40_header_and_count (index_of_chroma : ℚ → Nat) (source : Pnm_ppm)
    (out : List Nat) (hok : compress40 index_of_chroma source = .ok out) :
    (∃ body, out = printf_header (source.width - source.width % 2)
          (source.height - source.height % 2) ++ body ∧
        body.length = 4 * (source.width / 2) * (source.height / 2)) ∧
      printf_header (5 - 5 % 2) (3 - 3 % 2)
        = ("COMP40 Compressed image format 2\n4 2\n").toList.map Char.toNat ∧
      4 * (5 / 2) * (3 / 2) = 4 * 2 := by
  refine ⟨?_, by decide, by decide⟩
  unfold compress40 at hok
  simp only [] at hok
  rw [map_2by2_eq] at hok
  obtain ⟨body, hbody, hlen⟩ := encode_foldlM_length _ _ _ _ _ _ hok
  refine ⟨body, hbody, ?_⟩
  rw [hlen, blockOrigins_length, mul_assoc]

/-- C17, at the all-black 5 by 3 image with denominator 255 and the chroma
quantizer that answers 0 (header `4 2`, two codewords). -/
theorem compress40_header_and_count_witness :
    (∃ body, printf_header 4 2 ++ [0, 0, 0, 0, 0, 0, 0, 0]
          = printf_header (5 - 5 % 2) (3 - 3 % 2) ++ body ∧
        body.length = 4 * (5 / 2) * (3 / 2)) ∧
      printf_header (5 - 5 % 2) (3 - 3 % 2)
        = ("COMP40 Compressed image format 2\n4 2\n").toList.map Char.toNat ∧
      4 * (5 / 2) * (3 / 2) = 4 * 2 :=
  compress40_header_and_count (fun _ => 0) ⟨5, 3, 255, fun _ _ => blackPixel⟩ _
    compress40_black_5_3

/-- C18 (row-major block order): for a raster of width `w` and height `h`,
`map_2by2` applies the function to the block origins in the order of
`blockOrigins w h`, once each; these are exactly the pairs of even,
non-negative `col` and `row` with `col + 1 < w` and `row + 1 < h`, and the
`k`-th of them is `(2 * (k mod (w / 2)), 2 * (k div (w / 2)))`. -/
theorem map_2by2_row_major {σ : Type} (func : Int → Int → σ → Except Fault σ) (w h : Nat)
    (s : σ) :
    map_2by2 func (w : Int) (h : Int) s
        = (blockOrigins w h).foldlM (fun s p => func p.1 p.2 s) s ∧
      map_2by2 (fun col row (visited : List (Int × Int)) => .ok (visited ++ [(col, row)]))
          (w : Int) (h : Int) [] = .ok (blockOrigins w h) ∧
      (∀ col row : Int, (col, row) ∈ blockOrigins w h ↔
        (0 ≤ col ∧ 0 ≤ row ∧ col % 2 = 0 ∧ row % 2 = 0 ∧ col + 1 < w ∧ row + 1 < h)) ∧
      (blockOrigins w h).Nodup ∧
      blockOrigins w h = (List.range (w / 2 * (h / 2))).map fun (k : Nat) =>
        ((2 * ((k % (w / 2) : Nat) : Int)), (2 * ((k / (w / 2) : Nat) : Int))) := by
  refine ⟨map_2by2_eq func w h s, ?_, mem_blockOrigins w h, blockOrigins_nodup w h,
    blockOrigins_eq_map w h⟩
  rw [map_2by2_eq]
  have hrec := foldlM_record (blockOrigins w h) []
  rw [List.nil_append] at hrec
  exact hrec

/-- C19 (big-endian serialization): for a codeword below `2 ^ 32`, the output
loop of `pack_block` appends the bytes `cw / 2^24`, `cw / 2^16 mod 256`,
`cw / 2^8 mod 256`, `cw mod 256` in that order, and the four-byte read of
`decode_2by2` applied to those bytes returns `cw` and leaves the rest of the
input. -/
theorem codeword_bytes_big_endian (cw : Nat) (out rest : List Nat) (h : cw < 2 ^ 32) :
    pack_block_emit cw out
        = out ++ [cw / 2 ^ 24, cw / 2 ^ 16 % 256, cw / 2 ^ 8 % 256, cw % 256] ∧
      decode_2by2_read ([cw / 2 ^ 24, cw / 2 ^ 16 % 256, cw / 2 ^ 8 % 256, cw % 256] ++ rest)
        = .ok (cw, rest) := by
  constructor
  · rw [pack_block_emit_eq]
    simp only [byteOf]
    norm_num at h ⊢
    omega
  · simp only [decode_2by2_read, decode_2by2_read_loop, List.cons_append, List.nil_append,
      setByte, byteOf]
    refine congrArg Except.ok ?_
    norm_num at h ⊢
    omega

/-- C19, at the codeword `0xFE001FF0` of the specification's layout example. -/
theorem codeword_bytes_big_endian_witness :
    pack_block_emit 4261421040 []
        = [] ++ [4261421040 / 2 ^ 24, 4261421040 / 2 ^ 16 % 256, 4261421040 / 2 ^ 8 % 256,
            4261421040 % 256] ∧
      decode_2by2_read ([4261421040 / 2 ^ 24, 4261421040 / 2 ^ 16 % 256,
          4261421040 / 2 ^ 8 % 256, 4261421040 % 256] ++ [7])
        = .ok (4261421040, [7]) :=
  codeword_bytes_big_endian 4261421040 [] [7] (by decide)

/-- C20 (short-stream detection): after a header with dimensions `w` and `h`
(below `2 ^ 31`), decompression raises `SHORT_FILE` exactly when the body holds
fewer than `4 * (w / 2) * (h / 2)` bytes, and otherwise decodes every block; a
body of 2 bytes after the header `2 2` raises `SHORT_FILE`. -/
theorem short_file_iff (chroma_of_index : Nat → ℚ) (w h : Nat) (input : List Nat)
    (_hw : w < 2 ^ 31) (_hh : h < 2 ^ 31) :
    (decompress40_blocks chroma_of_index w h input = .error .shortFile
        ↔ input.length < 4 * (w / 2) * (h / 2)) ∧
      (4 * (w / 2) * (h / 2) ≤ input.length →
        ∃ pixels, decompress40_blocks chroma_of_index w h input = .ok pixels) ∧
      ∀ b0 b1 : Nat, decompress40_blocks chroma_of_index 2 2 [b0, b1] = .error .shortFile := by
  have hc := decompress40_blocks_cases chroma_of_index w h input
  refine ⟨⟨?_, hc.1⟩, hc.2, ?_⟩
  · intro herr
    by_contra hge
    obtain ⟨pixels, hp⟩ := hc.2 (by omega)
    rw [hp] at herr
    exact absurd herr (by simp)
  · intro b0 b1
    exact (decompress40_blocks_cases chroma_of_index 2 2 [b0, b1]).1 (by norm_num)

/-- C20, at the header `2 2` followed by the two bytes 254 and 0. -/
theorem short_file_iff_witness :
    (decompress40_blocks (fun _ => 0) 2 2 [254, 0] = .error .shortFile
        ↔ [254, 0].length < 4 * (2 / 2) * (2 / 2)) ∧
      (4 * (2 / 2) * (2 / 2) ≤ [254, 0].length →
        ∃ pixels, decompress40_blocks (fun _ => 0) 2 2 [254, 0] = .ok pixels) ∧
      ∀ b0 b1 : Nat, decompress40_blocks (fun _ => 0) 2 2 [b0, b1] = .error .shortFile :=
  short_file_iff (fun _ => 0) 2 2 [254, 0] (by decide) (by decide)

/-- C22 (block compression formulas): for a block of four colour-space triples
`(Y1,Pb1,Pr1)` to `(Y4,Pb4,Pr4)`, `Compress_CSBlock` returns the chroma averages
`(Pb1+Pb2+Pb3+Pb4)/4` and `(Pr1+Pr2+Pr3+Pr4)/4` and the coefficients
`a = (Y1+Y2+Y3+Y4)/4`, `b = (Y4+Y3-Y2-Y1)/4`, `c = (Y4-Y3+Y2-Y1)/4`,
`d = (Y4-Y3-Y2+Y1)/4`. -/
theorem Compress_CSBlock_formulas (y1 pb1 pr1 y2 pb2 pr2 y3 pb3 pr3 y4 pb4 pr4 : ℚ) :
    Compress_CSBlock [[y1, pb1, pr1], [y2, pb2, pr2], [y3, pb3, pr3], [y4, pb4, pr4]]
      = { dct_coeffs := [(y1 + y2 + y3 + y4) / 4, (y4 + y3 - y2 - y1) / 4,
            (y4 - y3 + y2 - y1) / 4, (y4 - y3 - y2 + y1) / 4],
          avg_pb := (pb1 + pb2 + pb3 + pb4) / 4,
          avg_pr := (pr1 + pr2 + pr3 + pr4) / 4 } :=
  Compress_CSBlock_eq y1 pb1 pr1 y2 pb2 pr2 y3 pb3 pr3 y4 pb4 pr4

/-- C23 (fixed block pixel order): `getCompressed` builds block entries 0, 1, 2,
3 from the pixels at `(col,row)`, `(col+1,row)`, `(col,row+1)`,
`(col+1,row+1)`, and `setPixels` writes the pixel reconstructed from entry `i`
at the same `i`-th position, in that order. -/
theorem block_pixel_order (pixels : Int → Int → Pnm_rgb) (array : Writes) (col row : Int)
    (denominator : Nat) (compressed : Compressed) :
    getCompressed pixels col row denominator
        = Compress_CSBlock
            [rgb_to_cspace (pixel_to_rgb (pixels col row) denominator),
             rgb_to_cspace (pixel_to_rgb (pixels (col + 1) row) denominator),
             rgb_to_cspace (pixel_to_rgb (pixels col (row + 1)) denominator),
             rgb_to_cspace (pixel_to_rgb (pixels (col + 1) (row + 1)) denominator)] ∧
      setPixels array col row denominator compressed
        = array ++
          [((col, row),
              rgb_to_pixel (cspace_to_rgb ((Decompress_CSBlock compressed).getD 0 []))
                denominator),
           ((col + 1, row),
              rgb_to_pixel (cspace_to_rgb ((Decompress_CSBlock compressed).getD 1 []))
                denominator),
           ((col, row + 1),
              rgb_to_pixel (cspace_to_rgb ((Decompress_CSBlock compressed).getD 2 []))
                denominator),
           ((col + 1, row + 1),
              rgb_to_pixel (cspace_to_rgb ((Decompress_CSBlock compressed).getD 3 []))
                denominator)] :=
  ⟨getCompressed_eq pixels col row denominator,
    setPixels_eq array col row denominator compressed⟩

/-- C30 (compressing a decompressed block): over exact arithmetic,
`Compress_CSBlock (Decompress_CSBlock x)` returns the four coefficients and the
two chroma averages of `x`, and the four triples of `Decompress_CSBlock x` carry
the same pair `(avg_pb, avg_pr)`. -/
theorem Compress_Decompress_CSBlock (a b c d pb pr : ℚ) :
    Compress_CSBlock (Decompress_CSBlock ⟨[a, b, c, d], pb, pr⟩) = ⟨[a, b, c, d], pb, pr⟩ ∧
      ∀ i, i < 4 →
        ((Decompress_CSBlock ⟨[a, b, c, d], pb, pr⟩).getD i []).getD 1 0 = pb ∧
        ((Decompress_CSBlock ⟨[a, b, c, d], pb, pr⟩).getD i []).getD 2 0 = pr := by
  rw [Decompress_CSBlock_eq, Compress_CSBlock_eq]
  constructor
  · simp only [Compressed.mk.injEq, List.cons.injEq, and_true]
    refine ⟨⟨?_, ?_, ?_, ?_⟩, ?_, ?_⟩ <;> ring
  · intro i hi
    interval_cases i <;> simp

/-- C28 (compression of a valid image never overflows): for a denominator
`d > 0`, pixels whose samples lie in `[0, d]` and chroma indices in `[0, 15]`,
the luma of every pixel lies in `[0, 1]`, and for the block at `(col, row)` the
rounded DC term lies in `[0, 63]`, the scaled `b`, `c`, `d` lie in `[-31, 31]`,
`make_codeword` returns a codeword and `encode_2by2` emits it. -/
theorem valid_block_never_overflows (index_of_chroma : ℚ → Nat)
    (hidx : ∀ x, index_of_chroma x ≤ 15) (pixels : Int → Int → Pnm_rgb) (d : Nat)
    (hd : 0 < d) (hpix : ∀ c r, validPixel (pixels c r) d) (col row : Int) (out : List Nat) :
    (∀ c r, ∃ y pb pr : ℚ,
        rgb_to_cspace (pixel_to_rgb (pixels c r) d) = [y, pb, pr] ∧ 0 ≤ y ∧ y ≤ 1) ∧
      (0 ≤ c_round ((getCompressed pixels col row d).dct_coeffs.getD 0 0 * 63.0) ∧
        c_round ((getCompressed pixels col row d).dct_coeffs.getD 0 0 * 63.0) ≤ 63) ∧
      (∀ i, -31 ≤ scale_DCT ((getCompressed pixels col row d).dct_coeffs.getD i 0) ∧
        scale_DCT ((getCompressed pixels col row d).dct_coeffs.getD i 0) ≤ 31) ∧
      ∃ (a_scaled : Nat) (cw : Nat),
        c_round ((getCompressed pixels col row d).dct_coeffs.getD 0 0 * 63.0) = (a_scaled : Int) ∧
        make_codeword (index_of_chroma (getCompressed pixels col row d).avg_pb)
          (index_of_chroma (getCompressed pixels col row d).avg_pr) a_scaled
          (scale_DCT ((getCompressed pixels col row d).dct_coeffs.getD 1 0))
          (scale_DCT ((getCompressed pixels col row d).dct_coeffs.getD 2 0))
          (scale_DCT ((getCompressed pixels col row d).dct_coeffs.getD 3 0)) = .ok cw ∧
        encode_2by2 index_of_chroma pixels d col row out = .ok (pack_block_emit cw out) := by
  have hl : ∀ c r, ∃ y pb pr : ℚ,
      rgb_to_cspace (pixel_to_rgb (pixels c r) d) = [y, pb, pr] ∧ 0 ≤ y ∧ y ≤ 1 :=
    fun c r => luma_range (pixels c r) d hd (hpix c r).1 (hpix c r).2.1 (hpix c r).2.2
  obtain ⟨y1, pb1, pr1, e1, h10, h11⟩ := hl col row
  obtain ⟨y2, pb2, pr2, e2, h20, h21⟩ := hl (col + 1) row
  obtain ⟨y3, pb3, pr3, e3, h30, h31⟩ := hl col (row + 1)
  obtain ⟨y4, pb4, pr4, e4, h40, h41⟩ := hl (col + 1) (row + 1)
  have hg := getCompressed_eq pixels col row d
  rw [e1, e2, e3, e4, Compress_CSBlock_eq] at hg
  have ha : (getCompressed pixels col row d).dct_coeffs.getD 0 0 = (y1 + y2 + y3 + y4) / 4 := by
    rw [hg]
    rfl
  have hdc := c_round_dc_range ((y1 + y2 + y3 + y4) / 4) (by linarith) (by linarith)
  rw [← ha] at hdc
  obtain ⟨n, hn⟩ := Int.eq_ofNat_of_zero_le hdc.1
  have hn63 : n ≤ 63 := by omega
  have hb := scale_DCT_range ((getCompressed pixels col row d).dct_coeffs.getD 1 0)
  have hc := scale_DCT_range ((getCompressed pixels col row d).dct_coeffs.getD 2 0)
  have hdd := scale_DCT_range ((getCompressed pixels col row d).dct_coeffs.getD 3 0)
  have hm := make_codeword_eq (index_of_chroma (getCompressed pixels col row d).avg_pb)
    (index_of_chroma (getCompressed pixels col row d).avg_pr) n
    (scale_DCT ((getCompressed pixels col row d).dct_coeffs.getD 1 0))
    (scale_DCT ((getCompressed pixels col row d).dct_coeffs.getD 2 0))
    (scale_DCT ((getCompressed pixels col row d).dct_coeffs.getD 3 0))
    hn63 ⟨by omega, by omega⟩ ⟨by omega, by omega⟩ ⟨by omega, by omega⟩ (hidx _) (hidx _)
  refine ⟨hl, hdc, fun i => scale_DCT_range _, n, _, hn, hm, ?_⟩
  unfold encode_2by2
  exact pack_block_eq index_of_chroma _ out n hn hn63 (hidx _) (hidx _)

/-- C28, at the all-black image with denominator 255 and the chroma quantizer
that answers 0. -/
theorem valid_block_never_overflows_witness :
    (∀ c r, ∃ y pb pr : ℚ,
        rgb_to_cspace (pixel_to_rgb (blackImage c r) 255) = [y, pb, pr] ∧
          0 ≤ y ∧ y ≤ 1) ∧
      (0 ≤ c_round ((getCompressed blackImage 0 0 255).dct_coeffs.getD 0 0 * 63.0) ∧
        c_round ((getCompressed blackImage 0 0 255).dct_coeffs.getD 0 0 * 63.0)
          ≤ 63) ∧
      (∀ i, -31 ≤ scale_DCT ((getCompressed blackImage 0 0 255).dct_coeffs.getD i 0) ∧
        scale_DCT ((getCompressed blackImage 0 0 255).dct_coeffs.getD i 0) ≤ 31) ∧
      ∃ (a_scaled : Nat) (cw : Nat),
        c_round ((getCompressed blackImage 0 0 255).dct_coeffs.getD 0 0 * 63.0)
          = (a_scaled : Int) ∧
        make_codeword (zeroIndex (getCompressed blackImage 0 0 255).avg_pb)
          (zeroIndex (getCompressed blackImage 0 0 255).avg_pr) a_scaled
          (scale_DCT ((getCompressed blackImage 0 0 255).dct_coeffs.getD 1 0))
          (scale_DCT ((getCompressed blackImage 0 0 255).dct_coeffs.getD 2 0))
          (scale_DCT ((getCompressed blackImage 0 0 255).dct_coeffs.getD 3 0))
            = .ok cw ∧
        encode_2by2 zeroIndex blackImage 255 0 0 []
          = .ok (pack_block_emit cw []) :=
  valid_block_never_overflows zeroIndex (fun _ => Nat.zero_le 15) blackImage 255
    (by decide) (fun _ _ => (by decide : validPixel blackPixel 255)) 0 0 []

/-- C24 (uniform image): when all pixels of an image equal the same valid pixel,
every block has coefficients `b = c = d = 0`, every block emits the same
codeword, and the `b`, `c`, `d` fields of that codeword are zero. -/
theorem uniform_image_codewords (index_of_chroma : ℚ → Nat)
    (hidx : ∀ x, index_of_chroma x ≤ 15) (p : Pnm_rgb) (d : Nat) (hd : 0 < d)
    (hp : validPixel p d) :
    ∃ (a : ℚ) (a_scaled pb pr cw : Nat),
      (∀ col row : Int, (getCompressed (fun _ _ => p) col row d).dct_coeffs = [a, 0, 0, 0]) ∧
      (∀ (col row : Int) (out : List Nat),
        encode_2by2 index_of_chroma (fun _ _ => p) d col row out
          = .ok (pack_block_emit cw out)) ∧
      decode_codeword_fields cw = .ok ⟨a_scaled, 0, 0, 0, pb, pr⟩ := by
  obtain ⟨y, pbv, prv, e, h0, h1⟩ := luma_range p d hd hp.1 hp.2.1 hp.2.2
  have hg : ∀ col row : Int, getCompressed (fun _ _ => p) col row d = ⟨[y, 0, 0, 0], pbv, prv⟩ := by
    intro col row
    rw [getCompressed_eq, e, Compress_CSBlock_eq]
    simp only [Compressed.mk.injEq, List.cons.injEq, and_true]
    refine ⟨⟨?_, ?_, ?_, ?_⟩, ?_, ?_⟩ <;> ring
  have hdc := c_round_dc_range y h0 h1
  obtain ⟨n, hn⟩ := Int.eq_ofNat_of_zero_le hdc.1
  have hn63 : n ≤ 63 := by omega
  refine ⟨y, n, index_of_chroma pbv, index_of_chroma prv,
    n * 2 ^ 26 + ((0 : Int) % 64).toNat * 2 ^ 20 + ((0 : Int) % 64).toNat * 2 ^ 14
      + ((0 : Int) % 64).toNat * 2 ^ 8 + index_of_chroma pbv * 2 ^ 4 + index_of_chroma prv,
    fun col row => by rw [hg], ?_, ?_⟩
  · intro col row out
    unfold encode_2by2
    rw [hg]
    have hpk := pack_block_eq index_of_chroma ⟨[y, 0, 0, 0], pbv, prv⟩ out n hn hn63
      (hidx _) (hidx _)
    simp only [List.getD_cons_zero, List.getD_cons_succ, scale_DCT_zero] at hpk
    exact hpk
  · exact decode_make_codeword (index_of_chroma pbv) (index_of_chroma prv) n 0 0 0 hn63
      (by decide) (by decide) (by decide) (hidx _) (hidx _)

/-- C24, at the all-black image with denominator 255 and the chroma quantizer
that answers 0. -/
theorem uniform_image_codewords_witness :
    ∃ (a : ℚ) (a_scaled pb pr cw : Nat),
      (∀ col row : Int,
        (getCompressed (fun _ _ => blackPixel) col row 255).dct_coeffs = [a, 0, 0, 0]) ∧
      (∀ (col row : Int) (out : List Nat),
        encode_2by2 zeroIndex (fun _ _ => blackPixel) 255 col row out
          = .ok (pack_block_emit cw out)) ∧
      decode_codeword_fields cw = .ok ⟨a_scaled, 0, 0, 0, pb, pr⟩ :=
  uniform_image_codewords zeroIndex (fun _ => Nat.zero_le 15) blackPixel 255 (by decide)
    (by decide)

/-- C26 (no clamping on reconstruction): the codeword `4263010101`, whose
fields are `a = 63`, `b = -31`, `c = -31`, `d = 31` and chroma indices 3 and 5,
decodes at denominator 255 to a first pixel whose three samples exceed 255,
whatever chroma values of magnitude at most 1/2 the two indices stand for. -/
theorem reconstruction_not_clamped :
    ∃ cw : Nat, cw < 2 ^ 32 ∧
      decode_codeword_fields cw = .ok ⟨63, -31, -31, 31, 3, 5⟩ ∧
      ∀ chroma_of_index : Nat → ℚ, |chroma_of_index 3| ≤ 1 / 2 → |chroma_of_index 5| ≤ 1 / 2 →
        ∃ compressed px, decode_codeword chroma_of_index cw = .ok compressed ∧
          (setPixels [] 0 0 255 compressed).head? = some ((0, 0), px) ∧
          255 < px.red ∧ 255 < px.green ∧ 255 < px.blue := by
  have hf : decode_codeword_fields 4263010101 = .ok ⟨63, -31, -31, 31, 3, 5⟩ := by decide
  refine ⟨4263010101, by norm_num, hf, ?_⟩
  intro chroma_of_index h3 h5
  have hb := abs_le.1 h3
  have hr := abs_le.1 h5
  refine ⟨⟨[((63 : Nat) : ℚ) / 63.0, unscale_DCT (-31), unscale_DCT (-31), unscale_DCT 31],
    chroma_of_index 3, chroma_of_index 5⟩,
    rgb_to_pixel (cspace_to_rgb ((Decompress_CSBlock
      ⟨[((63 : Nat) : ℚ) / 63.0, unscale_DCT (-31), unscale_DCT (-31), unscale_DCT 31],
        chroma_of_index 3, chroma_of_index 5⟩).getD 0 [])) 255, ?_, ?_, ?_⟩
  · unfold decode_codeword
    rw [hf]
    rfl
  · rw [setPixels_eq]
    rfl
  · rw [Decompress_CSBlock_eq]
    simp only [List.getD_cons_zero, cspace_to_rgb_eq, rgb_to_pixel, List.getD_cons_succ,
      unscale_DCT]
    refine ⟨?_, ?_, ?_⟩
    · have h := le_c_round_of_le 256
        ((((63 : Nat) : ℚ) / 63.0 - ((-31 : Int) : ℚ) / 103.33 - ((-31 : Int) : ℚ) / 103.33
          + ((31 : Int) : ℚ) / 103.33 + 1.402 * chroma_of_index 5) * ((255 : Nat) : ℚ))
        (by norm_num) (by norm_num; linarith)
      omega
    · have h := le_c_round_of_le 256
        ((((63 : Nat) : ℚ) / 63.0 - ((-31 : Int) : ℚ) / 103.33 - ((-31 : Int) : ℚ) / 103.33
          + ((31 : Int) : ℚ) / 103.33 + -0.344136 * chroma_of_index 3
          + -0.714136 * chroma_of_index 5) * ((255 : Nat) : ℚ))
        (by norm_num) (by norm_num; linarith)
      omega
    · have h := le_c_round_of_le 256
        ((((63 : Nat) : ℚ) / 63.0 - ((-31 : Int) : ℚ) / 103.33 - ((-31 : Int) : ℚ) / 103.33
          + ((31 : Int) : ℚ) / 103.33 + 1.772 * chroma_of_index 3) * ((255 : Nat) : ℚ))
        (by norm_num) (by norm_num; linarith)
      omega

/-- C29 (re-quantization of encoder-producible codewords): for `a` in
`[0, 63]` and `b`, `c`, `d` in `[-31, 31]`, `round ((a / 63.0) * 63.0) = a` and
`scale_DCT (unscale_DCT q) = q` for each of `b`, `c`, `d`; so, when the chroma
quantizer inverts the chroma table on the indices 0 to 15, `pack_block` applied
to `decode_codeword cw` emits the codeword `cw` that `make_codeword` built. -/
theorem requantization_identity (index_of_chroma : ℚ → Nat) (chroma_of_index : Nat → ℚ)
    (hinv : ∀ i, i ≤ 15 → index_of_chroma (chroma_of_index i) = i)
    (pb pr a : Nat) (b c d : Int) (out : List Nat) (ha : a ≤ 63)
    (hb : -31 ≤ b ∧ b ≤ 31) (hc : -31 ≤ c ∧ c ≤ 31) (hd : -31 ≤ d ∧ d ≤ 31)
    (hpb : pb ≤ 15) (hpr : pr ≤ 15) :
    c_round ((a : ℚ) / 63.0 * 63.0) = (a : Int) ∧
      scale_DCT (unscale_DCT b) = b ∧ scale_DCT (unscale_DCT c) = c ∧
      scale_DCT (unscale_DCT d) = d ∧
      ∃ cw compressed, make_codeword pb pr a b c d = .ok cw ∧
        decode_codeword chroma_of_index cw = .ok compressed ∧
        pack_block index_of_chroma compressed out = .ok (pack_block_emit cw out) := by
  have hsb := scale_unscale_DCT b hb
  have hsc := scale_unscale_DCT c hc
  have hsd := scale_unscale_DCT d hd
  have hm := make_codeword_eq pb pr a b c d ha ⟨by omega, hb.2⟩ ⟨by omega, hc.2⟩
    ⟨by omega, hd.2⟩ hpb hpr
  have hf := decode_make_codeword pb pr a b c d ha ⟨by omega, hb.2⟩ ⟨by omega, hc.2⟩
    ⟨by omega, hd.2⟩ hpb hpr
  refine ⟨round_dc_unscale a, hsb, hsc, hsd, _,
    ⟨[(a : ℚ) / 63.0, unscale_DCT b, unscale_DCT c, unscale_DCT d], chroma_of_index pb,
      chroma_of_index pr⟩, hm, ?_, ?_⟩
  · unfold decode_codeword
    rw [hf]
    rfl
  · have hpk := pack_block_eq index_of_chroma
      ⟨[(a : ℚ) / 63.0, unscale_DCT b, unscale_DCT c, unscale_DCT d], chroma_of_index pb,
        chroma_of_index pr⟩ out a (round_dc_unscale a) ha
      (by rw [hinv pb hpb]; exact hpb) (by rw [hinv pr hpr]; exact hpr)
    simp only [List.getD_cons_zero, List.getD_cons_succ, hsb, hsc, hsd, hinv pb hpb,
      hinv pr hpr] at hpk
    exact hpk

/-- C29, at `a = 63`, `b = 31`, `c = -31`, `d = 0`, chroma indices 0, with the
chroma table `identityChroma` and the quantizer `floorIndex`. -/
theorem requantization_identity_witness :
    c_round (((63 : Nat) : ℚ) / 63.0 * 63.0) = ((63 : Nat) : Int) ∧
      scale_DCT (unscale_DCT 31) = 31 ∧ scale_DCT (unscale_DCT (-31)) = -31 ∧
      scale_DCT (unscale_DCT 0) = 0 ∧
      ∃ cw compressed, make_codeword 0 0 63 31 (-31) 0 = .ok cw ∧
        decode_codeword identityChroma cw = .ok compressed ∧
        pack_block floorIndex compressed [] = .ok (pack_block_emit cw []) :=
  requantization_identity floorIndex identityChroma
    (fun i _ => by simp [floorIndex, identityChroma])
    0 0 63 31 (-31) 0 [] (by decide) (by decide) (by decide) (by decide) (by decide) (by decide)

/-- C21 (no partial output on failed decompression): whenever a run of
`decompress40` does not end normally (header assertion, `SHORT_FILE`, or any
other fault), nothing has been written to standard output; and when it ends
normally, the header was read as two dimensions followed by a newline, every
block was decoded, and standard output holds exactly what `Pnm_ppmwrite` writes
for the decoded raster. -/
theorem no_output_on_failure (chroma_of_index : Nat → ℚ)
    (Pnm_ppmwrite : Nat → Nat → Nat → Writes → List Nat) (input : List Nat) :
    ((decompress40 chroma_of_index Pnm_ppmwrite input).outcome ≠ .ok () →
        (decompress40 chroma_of_index Pnm_ppmwrite input).stdout = []) ∧
      ((decompress40 chroma_of_index Pnm_ppmwrite input).outcome = .ok () →
        ∃ w h body pixels,
          fscanf "COMP40 Compressed image format 2\n%u %u" input = .ok ([w, h], 10 :: body) ∧
          decompress40_blocks chroma_of_index w h body = .ok pixels ∧
          (decompress40 chroma_of_index Pnm_ppmwrite input).stdout
            = Pnm_ppmwrite w h 255 pixels) := by
  rcases hfs : fscanf "COMP40 Compressed image format 2\n%u %u" input with f | ⟨values, rest⟩
  · have hd : decompress40 chroma_of_index Pnm_ppmwrite input
        = { stdout := [], outcome := .error f } := by
      unfold decompress40
      rw [hfs]
    rw [hd]
    exact ⟨fun _ => rfl, fun h => absurd h (by simp)⟩
  · by_cases hlen : values.length = 2
    · obtain ⟨w, h, rfl⟩ := List.length_eq_two.1 hlen
      cases rest with
      | nil =>
        rw [decompress40_of_fscanf_nil _ _ _ _ _ hfs]
        exact ⟨fun _ => rfl, fun h => absurd h (by simp)⟩
      | cons c body =>
        rw [decompress40_of_fscanf_cons _ _ _ _ _ _ _ hfs]
        by_cases hc : c = 10
        · subst hc
          rw [if_pos rfl]
          rcases hb : decompress40_blocks chroma_of_index w h body with f | pixels
          · exact ⟨fun _ => rfl, fun h => absurd h (by simp)⟩
          · exact ⟨fun h => absurd rfl h, fun _ => ⟨w, h, body, pixels, rfl, hb, rfl⟩⟩
        · rw [if_neg hc]
          exact ⟨fun _ => rfl, fun h => absurd h (by simp)⟩
    · rw [decompress40_of_fscanf_count _ _ _ _ _ hfs hlen]
      exact ⟨fun _ => rfl, fun h => absurd h (by simp)⟩

/-- C27, as stated, fails: the stream `COMP40 Compressed image format 2 2 2`,
newline, four bytes, has a space where the claim requires the newline after the
literal text, yet `decompress40` accepts it and ends normally. -/
theorem header_without_newline_accepted :
    ¬ ("COMP40 Compressed image format 2\n".toList.map Char.toNat
        <+: "COMP40 Compressed image format 2 2 2\n".toList.map Char.toNat ++ [0, 0, 0, 0]) ∧
      (decompress40 identityChroma (fun _ _ _ _ => [])
        ("COMP40 Compressed image format 2 2 2\n".toList.map Char.toNat ++ [0, 0, 0, 0])).outcome
        = .ok () := by
  constructor
  · decide
  · have hf : fscanf "COMP40 Compressed image format 2\n%u %u"
        ("COMP40 Compressed image format 2 2 2\n".toList.map Char.toNat ++ [0, 0, 0, 0])
        = .ok ([2, 2], 10 :: [0, 0, 0, 0]) := by decide
    obtain ⟨pixels, hp⟩ :=
      (decompress40_blocks_cases identityChroma 2 2 [0, 0, 0, 0]).2 (by decide)
    rw [decompress40_of_fscanf_cons _ _ _ _ _ _ _ hf, if_pos rfl, hp]

/-- C27, amended: `decompress40` fails with the assertion failure, before any
block is decoded and with nothing written, whenever the stream with its white
space removed does not start with `COMP40Compressedimageformat2` (white space in
the format matches any run of white space, also an empty one), whenever `fscanf`
converts a number of integers other than two, and whenever the byte after the
second integer is missing or is not a newline; and it accepts the header that
`compress40` writes for dimensions below `2 ^ 32`, reading back the two
dimensions and going on to decode the body. -/
theorem header_validation (chroma_of_index : Nat → ℚ)
    (Pnm_ppmwrite : Nat → Nat → Nat → Writes → List Nat) :
    (∀ input, ¬ ("COMP40Compressedimageformat2".toList.map Char.toNat <+: strip input) →
        decompress40 chroma_of_index Pnm_ppmwrite input
          = { stdout := [], outcome := .error .assertion }) ∧
      (∀ input values rest,
        fscanf "COMP40 Compressed image format 2\n%u %u" input = .ok (values, rest) →
        values.length ≠ 2 →
        decompress40 chroma_of_index Pnm_ppmwrite input
          = { stdout := [], outcome := .error .assertion }) ∧
      (∀ input w h rest,
        fscanf "COMP40 Compressed image format 2\n%u %u" input = .ok ([w, h], rest) →
        rest.head? ≠ some 10 →
        decompress40 chroma_of_index Pnm_ppmwrite input
          = { stdout := [], outcome := .error .assertion }) ∧
      (∀ tw th body, tw < 2 ^ 32 → th < 2 ^ 32 →
        fscanf "COMP40 Compressed image format 2\n%u %u" (printf_header tw th ++ body)
          = .ok ([tw, th], 10 :: body) ∧
        decompress40 chroma_of_index Pnm_ppmwrite (printf_header tw th ++ body)
          = match decompress40_blocks chroma_of_index tw th body with
            | .error f => { stdout := [], outcome := .error f }
            | .ok pixels => { stdout := Pnm_ppmwrite tw th 255 pixels, outcome := .ok () }) := by
  refine ⟨?_, ?_, ?_, ?_⟩
  · intro input h
    obtain ⟨rest, hf⟩ := fscanf_literal_required input h
    exact decompress40_of_fscanf_count _ _ _ _ _ hf (by decide)
  · intro input values rest hf hlen
    exact decompress40_of_fscanf_count _ _ _ _ _ hf hlen
  · intro input w h rest hf hhead
    cases rest with
    | nil => exact decompress40_of_fscanf_nil _ _ _ _ _ hf
    | cons c body =>
      rw [decompress40_of_fscanf_cons _ _ _ _ _ _ _ hf, if_neg]
      intro hc
      apply hhead
      rw [hc]
      rfl
  · intro tw th body htw hth
    have hf := fscanf_printf_header tw th body htw hth
    refine ⟨hf, ?_⟩
    rw [decompress40_of_fscanf_cons _ _ _ _ _ _ _ hf, if_pos rfl]

/-- C31 (block traversal in bounds, partition of the trimmed raster): for a
raster of width `w` and height `h`, the positions of the blocks `map_2by2`
visits are `visitedPositions w h`; for every origin it visits, `getCompressed`
depends only on pixels with `0 ≤ col < w` and `0 ≤ row < h`, and `setPixels`
writes exactly the four positions of the block, all with `0 ≤ col < w` and
`0 ≤ row < h`; no position is visited twice, and the visited positions are those
with `col < 2 * (w / 2)` and `row < 2 * (h / 2)`; a decompression with enough
input writes exactly these positions, so that for even `w` and `h` every pixel
of the raster is written exactly once, for odd `w` column `w - 1` is never
written and for odd `h` row `h - 1` is never written. -/
theorem block_traversal_in_bounds_and_partition (chroma_of_index : Nat → ℚ) (w h : Nat)
    (input : List Nat) :
    map_2by2 (fun col row (touched : List (Int × Int)) =>
          .ok (touched ++ blockPositions col row)) (w : Int) (h : Int) []
        = .ok (visitedPositions w h) ∧
      (∀ origin ∈ blockOrigins w h, ∀ denominator : Nat,
        (∀ pixels1 pixels2 : Int → Int → Pnm_rgb,
          (∀ col row : Int, 0 ≤ col → col < w → 0 ≤ row → row < h →
            pixels1 col row = pixels2 col row) →
          getCompressed pixels1 origin.1 origin.2 denominator
            = getCompressed pixels2 origin.1 origin.2 denominator) ∧
        (∀ (array : Writes) (compressed : Compressed),
          ∃ written : Writes,
            setPixels array origin.1 origin.2 denominator compressed = array ++ written ∧
              written.map Prod.fst = blockPositions origin.1 origin.2) ∧
        ∀ p ∈ blockPositions origin.1 origin.2, 0 ≤ p.1 ∧ p.1 < w ∧ 0 ≤ p.2 ∧ p.2 < h) ∧
      (visitedPositions w h).Nodup ∧
      (∀ col row : Int, (col, row) ∈ visitedPositions w h ↔
        (0 ≤ col ∧ 0 ≤ row ∧ col < 2 * ((w / 2 : Nat) : Int) ∧
          row < 2 * ((h / 2 : Nat) : Int))) ∧
      (4 * (w / 2) * (h / 2) ≤ input.length →
        ∃ pixels, decompress40_blocks chroma_of_index w h input = .ok pixels ∧
          pixels.map Prod.fst = visitedPositions w h ∧
          (w % 2 = 0 → h % 2 = 0 → ∀ col row : Int, 0 ≤ col → col < w → 0 ≤ row → row < h →
            (pixels.map Prod.fst).count (col, row) = 1) ∧
          (w % 2 = 1 → ∀ row : Int, ((w : Int) - 1, row) ∉ pixels.map Prod.fst) ∧
          (h % 2 = 1 → ∀ col : Int, (col, (h : Int) - 1) ∉ pixels.map Prod.fst)) := by
  refine ⟨?_, ?_, visitedPositions_nodup w h, mem_visitedPositions w h, ?_⟩
  · rw [map_2by2_eq]
    have hrec := foldlM_record_positions (blockOrigins w h) []
    rw [List.nil_append] at hrec
    exact hrec
  · intro origin ho denominator
    refine ⟨?_, ?_, blockPositions_in_bounds w h origin ho⟩
    · intro pixels1 pixels2 hagree
      apply getCompressed_congr
      intro p hp
      have hb := blockPositions_in_bounds w h origin ho p hp
      exact hagree p.1 p.2 hb.1 hb.2.1 hb.2.2.1 hb.2.2.2
    · intro array compressed
      have hpos := setPixels_positions array origin.1 origin.2 denominator compressed
      rw [setPixels_eq] at hpos ⊢
      rw [List.map_append] at hpos
      exact ⟨_, rfl, List.append_cancel_left hpos⟩
  · intro hlen
    obtain ⟨pixels, hok⟩ := (decompress40_blocks_cases chroma_of_index w h input).2 hlen
    have hpos := decompress40_blocks_positions chroma_of_index w h input pixels hok
    refine ⟨pixels, hok, hpos, ?_, ?_, ?_⟩
    · intro hw hh col row hc0 hc1 hr0 hr1
      rw [hpos]
      apply count_eq_one_of_nodup _ _ (visitedPositions_nodup w h)
      rw [mem_visitedPositions]
      omega
    · intro hw row hmem
      rw [hpos, mem_visitedPositions] at hmem
      omega
    · intro hh col hmem
      rw [hpos, mem_visitedPositions] at hmem
      omega

/-- C32 (quantization error bound): over exact arithmetic, for every `a` in
`[0, 1]` the value `round(a * 63)` that `pack_block` stores converts to an
unsigned `n` of at most 63 and the value `n / 63` that `decode_codeword` rebuilds
is within `1 / 126` of `a`; for every `x` in `[-0.3, 0.3]`,
`unscale_DCT (scale_DCT x)` is within `0.5 / 103.33` of `x`; for `x` above `0.3`
it is `31 / 103.33` and for `x` below `-0.3` it is `-31 / 103.33`. -/
theorem quantization_error_bound (a x : ℚ) :
    (0 ≤ a → a ≤ 1 →
        ∃ n : Nat, doubleToUnsigned (c_round (a * 63.0)) = .ok n ∧ n ≤ 63 ∧
          ((n : Int) = c_round (a * 63.0)) ∧ |(n : ℚ) / 63.0 - a| ≤ 1 / 126) ∧
      (-0.3 ≤ x → x ≤ 0.3 → |unscale_DCT (scale_DCT x) - x| ≤ 0.5 / 103.33) ∧
      (0.3 < x → unscale_DCT (scale_DCT x) = 31 / 103.33) ∧
      (x < -0.3 → unscale_DCT (scale_DCT x) = -31 / 103.33) := by
  refine ⟨?_, ?_, ?_, ?_⟩
  · intro h0 h1
    have hr := c_round_dc_range a h0 h1
    have hq := abs_c_round_sub_le (a * 63.0)
    have hn : ((c_round (a * 63.0)).toNat : Int) = c_round (a * 63.0) := Int.toNat_of_nonneg hr.1
    refine ⟨(c_round (a * 63.0)).toNat, ?_, ?_, hn, ?_⟩
    · unfold doubleToUnsigned
      rw [if_pos ⟨hr.1, by omega⟩]
    · omega
    · have hc : (((c_round (a * 63.0)).toNat : Nat) : ℚ) = ((c_round (a * 63.0) : Int) : ℚ) := by
        exact_mod_cast hn
      rw [hc]
      rw [abs_le] at hq ⊢
      norm_num at hq ⊢
      constructor <;> linarith
  · intro h1 h2
    rw [scale_DCT_of_mem x h1 h2]
    have hq := abs_c_round_sub_le (x * 103.33)
    unfold unscale_DCT
    rw [abs_le] at hq ⊢
    norm_num at hq ⊢
    constructor <;> linarith
  · intro h
    rw [scale_DCT_above x h]
    unfold unscale_DCT
    norm_num
  · intro h
    rw [scale_DCT_below x h]
    unfold unscale_DCT
    norm_num

end Arith
